import Mathlib

/-
Verification of the create dispatch pipeline of `lib/dispatch/create.js`.

The pipeline is embedded shallowly: JavaScript objects become association
lists, the promise chain becomes a sequential function threading an explicit
trace of the calls made against the storage adapter, and the external
collaborators of the dispatcher (input transform, `enforce`, `checkLinks`,
`validateRecords`, and the adapter transaction itself) become function-valued
parameters collected in an `Env`, so that theorems quantify over every
possible behaviour of those collaborators.
-/

namespace FortuneCreate

/-- A JavaScript field value as far as the dispatcher inspects it: `vnull` is
`null`, `vid` an opaque primary key, `varr` an array link value (the code
calls `Array.isArray` on link values and iterates the elements, each a
primary key or null, modelled as `Option Nat`), and `vdata` any other value
the dispatcher treats as opaque. -/
inductive Value where
  | vnull : Value
  | vid : Nat → Value
  | varr : List (Option Nat) → Value
  | vdata : String → Value
deriving DecidableEq, Repr

/-- A record is a JavaScript object: an association list from field name to
value.  Absence of a key models `!(field in record)`. -/
abbrev Record := List (String × Value)

/-- A field definition of the schema (`recordTypes[type][field]`): the keys
`link`, `inverse`, `isArray` and `denormalizedInverse` that `create.js`
inspects.  `none` models absence of the key. -/
structure FieldDef where
  link : Option String := none
  inverse : Option String := none
  isArray : Bool := false
  denormalizedInverse : Bool := false
deriving DecidableEq, Repr

/-- The ordered field declarations of one record type. -/
abbrev Fields := List (String × FieldDef)

/-- The schema registry `recordTypes`, keyed by type name. -/
abbrev RecordTypes := List (String × Fields)

/-- First-match association lookup, the embedding of JavaScript property
access `obj[key]` (with `none` for `undefined`). -/
def assocGet {β : Type} (f : String) : List (String × β) → Option β
  | [] => none
  | (g, v) :: rest => if g = f then some v else assocGet f rest

/-- The constant `constants.primary`: the reserved primary key field. -/
def primaryKey : String := "id"

/-- The embedding of `delete record[field]`. -/
def eraseField (r : Record) (f : String) : Record :=
  r.filter (fun q => !(q.1 == f))

/-- Lines 62-68 of `create.js`: for every field of the record type marked
`denormalizedInverse`, delete that field from the record.  Fields are
processed in declaration order, like the `for field in fields` loop. -/
def stripDenorm (fields : Fields) (r : Record) : Record :=
  match fields with
  | [] => r
  | (f, fd) :: rest =>
      stripDenorm rest (if fd.denormalizedInverse then eraseField r f else r)

/-- Lines 62-64 of `create.js`: the `links` list collects, in declaration
order, every field of the type that has a `link` key. -/
def linksOf (fields : Fields) : List String :=
  (fields.filter (fun fp => fp.2.link.isSome)).map Prod.fst

/-- The errors the pipeline can surface.  The first two are the
`BadRequestError`s thrown by `create.js` itself (messages
`CreateRecordsInvalid` at line 53 and `CreateRecordsFail` at line 118), the
third is the plain `Error` with message `CreateRecordMissingID` at line 126,
and `ext` stands for any error produced by an external collaborator (adapter,
transform, enforcement, link check or record validation). -/
inductive Err where
  | badRequestCreateRecordsInvalid : Err
  | badRequestCreateRecordsFail : Err
  | createRecordMissingID : Err
  | ext : Nat → Err
deriving DecidableEq, Repr

/-- Modelled from the spec: `update_helpers.js` (`getUpdate`, `addId`) is not
among the sources.  Per §3 and §4.3 of the spec an Update Operation is the
target's primary key together with field mutations, where a mutation either
adds an identifier to an array field (`push`) or replaces a scalar field with
an identifier (`replace`). -/
structure UpdateOp where
  id : Value
  push : List (String × List Value) := []
  replace : List (String × Value) := []
deriving DecidableEq, Repr

/-- Append a value to the list stored under key `f`, creating the key at the
end when absent. -/
def pushAppend : List (String × List Value) → String → Value → List (String × List Value)
  | [], f, v => [(f, [v])]
  | (g, vs) :: rest, f, v =>
      if g = f then (g, vs ++ [v]) :: rest else (g, vs) :: pushAppend rest f v

/-- Set key `f` to value `v`, overwriting the first occurrence or appending
at the end when absent. -/
def replaceSet : List (String × Value) → String → Value → List (String × Value)
  | [], f, v => [(f, v)]
  | (g, w) :: rest, f, v =>
      if g = f then (g, v) :: rest else (g, w) :: replaceSet rest f v

/-- Modelled from the spec: `addId` adds the source record's primary key `pk`
into the pending operation `u` for the inverse field `field` — appending into
an array mutation when the inverse field is array-valued, replacing the
scalar mutation otherwise (§4.3: "add to array" versus "replace scalar",
based on the target field's declared cardinality). -/
def addId (pk : Value) (u : UpdateOp) (field : String) (isArr : Bool) : UpdateOp :=
  if isArr then { u with push := pushAppend u.push field pk }
  else { u with replace := replaceSet u.replace field pk }

/-- The `updates` accumulator of `create.js`: a JavaScript object keyed by
linked type name, valued by the list of pending Update Operations, with
insertion-ordered keys. -/
abbrev Updates := List (String × List UpdateOp)

/-- `updates[t]`, defaulting to the empty list. -/
def updGet (u : Updates) (t : String) : List UpdateOp :=
  (assocGet t u).getD []

/-- `updates[t] = ops`: overwrite the first occurrence of the key, or append
the key at the end when absent (JavaScript insertion order). -/
def updSet : Updates → String → List UpdateOp → Updates
  | [], t, ops => [(t, ops)]
  | (s, o) :: rest, t, ops =>
      if s = t then (t, ops) :: rest else (s, o) :: updSet rest t ops

/-- Line 141 of `create.js`: `if (!updates[linkedType]) updates[linkedType] = []`
— initialize the key with an empty list when it is absent. -/
def updInitKey (u : Updates) (t : String) : Updates :=
  if (assocGet t u).isSome then u else u ++ [(t, [])]

/-- Modelled from the spec: `getUpdate` combined with `addId` — the
lookup-or-create pattern of §4.3, keyed by the target's primary key inside
one linked type's operation list.  The operation for `targetId` is found (or
appended at the end, as `updates[type].push(update)` does) and `addId` is
applied to it; all other operations are untouched. -/
def applyAddId (ops : List UpdateOp) (targetId pk : Value) (field : String)
    (isArr : Bool) : List UpdateOp :=
  match ops with
  | [] => [addId pk { id := targetId } field isArr]
  | o :: rest =>
      if o.id = targetId then addId pk o field isArr :: rest
      else o :: applyAddId rest targetId pk field isArr

/-- Line 136 of `create.js`:
`recordTypes[linkedType][inverseField][isArrayKey]`. -/
def invIsArray (recordTypes : RecordTypes) (linkedType invField : String) : Bool :=
  ((assocGet invField ((assocGet linkedType recordTypes).getD [])).getD {}).isArray

/-- Lines 137-138 of `create.js`:
`Array.isArray(record[field]) ? record[field] : [ record[field] ]` — an array
value contributes its elements (a null element becoming `vnull`), any other
value is wrapped in a singleton. -/
def linkedIdsOf : Value → List Value
  | .varr vs => vs.map (fun e => match e with | none => Value.vnull | some n => Value.vid n)
  | v => [v]

/-- Lines 144-150 of `create.js`: iterate the linked ids (the caller passes
them already reversed, matching the `for (k = linkedIds.length; k--;)` loop)
and, for each non-null id, add the source primary key into the pending
operation for that target. -/
def addLinkIds (u : Updates) (ltype invField : String) (isArr : Bool)
    (pk : Value) (ids : List Value) : Updates :=
  ids.foldl
    (fun acc tid =>
      if tid ≠ Value.vnull then
        updSet acc ltype (applyAddId (updGet acc ltype) tid pk invField isArr)
      else acc)
    u

/-- Lines 130-150 of `create.js`: the body of the per-link-field loop for a
single field of one record.  A field contributes only when it is present on
the record and its declaration has an `inverse` key; the linked type's entry
in `updates` is initialized before the id loop runs. -/
def processField (recordTypes : RecordTypes) (fields : Fields) (r : Record)
    (u : Updates) (field : String) : Updates :=
  match assocGet field r, ((assocGet field fields).getD {}).inverse with
  | some v, some invField =>
      let fd := (assocGet field fields).getD {}
      let ltype := fd.link.getD ""
      addLinkIds (updInitKey u ltype) ltype invField
        (invIsArray recordTypes ltype invField)
        ((assocGet primaryKey r).getD Value.vnull)
        (linkedIdsOf v).reverse
  | _, _ => u

/-- Lines 128-151 of `create.js`: the per-record loop over the link fields
(reversed, matching `for (j = links.length; j--;)`). -/
def processLinks (recordTypes : RecordTypes) (fields : Fields)
    (links : List String) (r : Record) (u : Updates) : Updates :=
  links.reverse.foldl (processField recordTypes fields r) u

/-- Lines 121-152 of `create.js`: iterate the created records (the caller
passes them already reversed, matching `for (i = records.length; i--;)`),
failing with `CreateRecordMissingID` at the first record without a primary
key; the accumulated updates built so far are kept alongside the error, like
the mutable `updates` variable. -/
def buildUpdates (recordTypes : RecordTypes) (fields : Fields)
    (links : List String) : List Record → Updates → Updates × Option Err
  | [], u => (u, none)
  | r :: rest, u =>
      if (assocGet primaryKey r).isSome then
        buildUpdates recordTypes fields links rest
          (processLinks recordTypes fields links r u)
      else (u, some Err.createRecordMissingID)

/-- The change event of lines 171-184: a `create` entry for the primary type
and an `update` entry per linked type that has at least one pending
operation, in insertion order. -/
structure EventData where
  createEntries : List (String × List Record)
  updateEntries : List (String × List UpdateOp)
deriving DecidableEq, Repr

/-- One observable call made by the dispatcher, in order: `beginTransaction`,
an input-transform invocation, `transaction.create`, `transaction.update`,
`transaction.endTransaction()` (commit), `transaction.endTransaction(error)`
(abort, recording the abort call's own ignored result), and the change-event
emission. -/
inductive Ev where
  | beginTx : Ev
  | transformCall : Record → Ev
  | createCall : List Record → Ev
  | updateCall : String → List UpdateOp → Ev
  | commitCall : Ev
  | abortCall : Err → Option Err → Ev
  | emit : EventData → Ev
deriving DecidableEq, Repr

/-- The behaviour of every external collaborator the dispatcher calls: the
adapter transaction, the optional input transform (`transforms[type][0]`),
and the `enforce` / `checkLinks` / `validateRecords` helpers imported by
`create.js`.  Each may fail with an arbitrary error. -/
structure Env where
  beginTx : Except Err Unit
  transform : Option (Record → Except Err Record)
  enforce : Record → Option Err
  checkLinks : Record → Option Err
  validateRecords : List Record → Option Err
  createRes : List Record → Except Err (List Record)
  updateRes : String → List UpdateOp → Option Err
  commitRes : Option Err
  abortRes : Err → Option Err

/-- Lines 77-80 of `create.js`: run the input transform over every record in
order, recording each invocation and short-circuiting on the first failure. -/
def runTransform (f : Record → Except Err Record) :
    List Record → List Ev × Except Err (List Record)
  | [] => ([], Except.ok [])
  | r :: rest =>
      match f r with
      | Except.error e => ([Ev.transformCall r], Except.error e)
      | Except.ok r' =>
          (Ev.transformCall r :: (runTransform f rest).1,
            match (runTransform f rest).2 with
            | Except.error e => Except.error e
            | Except.ok rs => Except.ok (r' :: rs))

/-- Line 77 of `create.js`: `typeof transform[0] === 'function' ? ... : records`
— records pass through untouched when no input transform is declared. -/
def transformStage (env : Env) (records : List Record) :
    List Ev × Except Err (List Record) :=
  match env.transform with
  | none => ([], Except.ok records)
  | some f => runTransform f records

/-- First failure, by record order, of a per-record check. -/
def firstSome (f : Record → Option Err) : List Record → Option Err
  | [] => none
  | r :: rest =>
      match f r with
      | some e => some e
      | none => firstSome f rest

/-- Lines 86-93 of `create.js`: `enforce` runs synchronously per record, so
any `enforce` failure surfaces before any `checkLinks` rejection; among the
concurrent `checkLinks` calls the first failure (by record order, a
deterministic resolution of the documented race) is reported. -/
def enforceStage (env : Env) (records : List Record) : Option Err :=
  match firstSome env.enforce records with
  | some e => some e
  | none => firstSome env.checkLinks records

/-- Lines 154-158 of `create.js`: the per-type update dispatch.  Every type
with a non-empty operation list gets a `transaction.update` call (all calls
are initiated by the synchronous `map` before `Promise.all` settles, so later
calls happen even when an earlier one fails); types with an empty list are
skipped; the first failure by key order is reported. -/
def runUpdates (env : Env) : Updates → List Ev × Option Err
  | [] => ([], none)
  | (t, ops) :: rest =>
      if ops.isEmpty then runUpdates env rest
      else
        (Ev.updateCall t ops :: (runUpdates env rest).1,
          match env.updateRes t ops with
          | some e => some e
          | none => (runUpdates env rest).2)

/-- The outcome of the part of the chain guarded by the catch handler. -/
structure BodyOut where
  trace : List Ev
  result : Except Err Unit
  responseRecords : Option (List Record)
  finalUpdates : Updates
deriving Repr

/-- Lines 74-163 of `create.js`: the chain from the transform stage to the
commit — everything that runs with the transaction open.  Each failing stage
short-circuits with its error; `responseRecords` is `context.response.records`
(set at line 111 as soon as the backend returns) and `finalUpdates` mirrors
the `updates` variable. -/
def createBody (env : Env) (recordTypes : RecordTypes) (fields : Fields)
    (links : List String) (records0 : List Record) : BodyOut :=
  match transformStage env records0 with
  | (trB, Except.error e) => ⟨trB, Except.error e, none, []⟩
  | (trB, Except.ok records1) =>
    match enforceStage env records1 with
    | some e => ⟨trB, Except.error e, none, []⟩
    | none =>
      match env.validateRecords records1 with
      | some e => ⟨trB, Except.error e, none, []⟩
      | none =>
        match env.createRes records1 with
        | Except.error e =>
            ⟨trB ++ [Ev.createCall records1], Except.error e, none, []⟩
        | Except.ok created =>
          if created.isEmpty then
            ⟨trB ++ [Ev.createCall records1],
              Except.error Err.badRequestCreateRecordsFail, some created, []⟩
          else
            match buildUpdates recordTypes fields links created.reverse [] with
            | (upds, some e) =>
                ⟨trB ++ [Ev.createCall records1], Except.error e,
                  some created, upds⟩
            | (upds, none) =>
              match runUpdates env upds with
              | (trU, some e) =>
                  ⟨trB ++ [Ev.createCall records1] ++ trU, Except.error e,
                    some created, upds⟩
              | (trU, none) =>
                match env.commitRes with
                | some e =>
                    ⟨trB ++ [Ev.createCall records1] ++ trU ++ [Ev.commitCall],
                      Except.error e, some created, upds⟩
                | none =>
                    ⟨trB ++ [Ev.createCall records1] ++ trU ++ [Ev.commitCall],
                      Except.ok (), some created, upds⟩

/-- The full observable outcome of one create request: the ordered trace of
external calls, the settled result, `context.response.records`, the state of
the caller's payload objects after the request (the dispatcher mutates them
in place when stripping denormalized fields), and the `updates`
accumulator. -/
structure Outcome where
  trace : List Ev
  result : Except Err Unit
  responseRecords : Option (List Record)
  callerPayload : Option (List Record)
  finalUpdates : Updates
deriving Repr

/-- The whole of `module.exports` in `create.js`.  Missing or empty payload
fails with `BadRequestError(CreateRecordsInvalid)` before `beginTransaction`;
after a transaction is open any error from the body triggers
`transaction.endTransaction(error)` (whose own result is recorded in the
trace but ignored) before the error is re-thrown; on success the change event
is emitted once, after the commit, with an `update` sub-entry per linked type
that has a non-empty operation list. -/
def create (env : Env) (recordTypes : RecordTypes) (type : String)
    (payload : Option (List Record)) : Outcome :=
  match payload with
  | none =>
      ⟨[], Except.error Err.badRequestCreateRecordsInvalid, none, none, []⟩
  | some recs =>
    if recs.isEmpty then
      ⟨[], Except.error Err.badRequestCreateRecordsInvalid, none, some recs, []⟩
    else
      let fields := (assocGet type recordTypes).getD []
      let links := linksOf fields
      let stripped := recs.map (stripDenorm fields)
      match env.beginTx with
      | Except.error e =>
          ⟨[Ev.beginTx], Except.error e, none, some stripped, []⟩
      | Except.ok _ =>
        let b := createBody env recordTypes fields links stripped
        match b.result with
        | Except.error e =>
            ⟨Ev.beginTx :: (b.trace ++ [Ev.abortCall e (env.abortRes e)]),
              Except.error e, b.responseRecords, some stripped, b.finalUpdates⟩
        | Except.ok _ =>
            let eventData : EventData :=
              ⟨[(type, b.responseRecords.getD [])],
                b.finalUpdates.filter (fun p => !p.2.isEmpty)⟩
            ⟨Ev.beginTx :: (b.trace ++ [Ev.emit eventData]),
              Except.ok (), b.responseRecords, some stripped, b.finalUpdates⟩

/-- Whether an event is an abort call. -/
def isAbort : Ev → Bool
  | Ev.abortCall _ _ => true
  | _ => false

/-- Whether an event is a change-event emission. -/
def isEmit : Ev → Bool
  | Ev.emit _ => true
  | _ => false

/-- Whether an event is a backend create call. -/
def isCreateCall : Ev → Bool
  | Ev.createCall _ => true
  | _ => false

/-- Whether an update operation carries a given identifier among its field
mutations — in some array (`push`) mutation or as a scalar (`replace`)
value. -/
def opContains (op : UpdateOp) (v : Value) : Prop :=
  (∃ p ∈ op.push, v ∈ p.2) ∨ (∃ q ∈ op.replace, q.2 = v)

instance (op : UpdateOp) (v : Value) : Decidable (opContains op v) := by
  unfold opContains; infer_instance

/-- The operation list for target `tid` in `u`'s entry for type `t` has an
operation whose `push` mutation of field `f` carries `pk`. -/
def opRefInPush (u : Updates) (t : String) (tid : Value) (f : String)
    (pk : Value) : Prop :=
  ∃ op ∈ updGet u t, op.id = tid ∧ ∃ vs, assocGet f op.push = some vs ∧ pk ∈ vs

/-- The record type's fields as `create.js` resolves them:
`fields = recordTypes[type]`. -/
def fieldsFor (rt : RecordTypes) (ty : String) : Fields :=
  (assocGet ty rt).getD []

/-- The caller's payload after the denormalized-field stripping of lines
62-68. -/
def strippedFor (rt : RecordTypes) (ty : String) (recs : List Record) :
    List Record :=
  recs.map (stripDenorm (fieldsFor rt ty))

/-- The body of the request as `create` runs it once the transaction is
open. -/
def bodyFor (env : Env) (rt : RecordTypes) (ty : String) (recs : List Record) :
    BodyOut :=
  createBody env rt (fieldsFor rt ty) (linksOf (fieldsFor rt ty))
    (strippedFor rt ty recs)

/-
Concrete fixtures: a person/animal schema with an array-valued inverse (each
animal lists its owners), one with a singular inverse (each animal has one
owner), and environments exercising the pipeline's branches.
-/

/-- Schema with array-valued inverse: `person.pets` links to `animal`, whose
`owners` field is an array; `person.secret` is a denormalized inverse
field. -/
def rtArr : RecordTypes :=
  [("person",
    [("pets", { link := some "animal", inverse := some "owners", isArray := true }),
     ("secret", { denormalizedInverse := true })]),
   ("animal",
    [("owners", { link := some "person", inverse := some "pets", isArray := true })])]

/-- Schema with singular inverse: `animal.owner` is scalar. -/
def rtSing : RecordTypes :=
  [("person",
    [("pets", { link := some "animal", inverse := some "owner", isArray := true })]),
   ("animal",
    [("owner", { link := some "person", inverse := some "pets", isArray := false })])]

/-- A payload record carrying a caller-supplied denormalized field. -/
def pIn1 : Record :=
  [("pets", Value.varr [some 10]), ("secret", Value.vdata "x"),
   ("name", Value.vdata "a")]

/-- A plain payload record referencing animal 10. -/
def pIn2 : Record := [("pets", Value.varr [some 10])]

/-- Created records as the backend returns them, with assigned ids. -/
def pC1 : Record := [("id", Value.vid 1), ("pets", Value.varr [some 10])]

/-- Second created record referencing the same animal. -/
def pC2 : Record := [("id", Value.vid 2), ("pets", Value.varr [some 10])]

/-- A created record whose only link value is null. -/
def pCNull : Record := [("id", Value.vid 1), ("pets", Value.vnull)]

/-- A fully successful environment: every collaborator succeeds and the
backend returns two created records. -/
def envOK : Env :=
  { beginTx := Except.ok ()
    transform := none
    enforce := fun _ => none
    checkLinks := fun _ => none
    validateRecords := fun _ => none
    createRes := fun _ => Except.ok [pC1, pC2]
    updateRes := fun _ _ => none
    commitRes := none
    abortRes := fun _ => none }

/-- Environment whose enforcement step fails and whose abort call itself
fails — the abort failure must not replace the enforcement error. -/
def envEnfFail : Env :=
  { envOK with
      enforce := fun _ => some (Err.ext 7)
      abortRes := fun _ => some (Err.ext 99) }

/-- Environment whose backend create returns an empty result set. -/
def envEmptyRes : Env :=
  { envOK with createRes := fun _ => Except.ok [] }

/-- Environment whose backend returns a single record with a null link. -/
def envNullLink : Env :=
  { envOK with createRes := fun _ => Except.ok [pCNull] }

/-- Environment with an identity input transform declared. -/
def envIdT : Env :=
  { envOK with transform := some (fun r => Except.ok r) }


/-- Whether the record type declares field `f` as a denormalized inverse
field (so the stripping loop deletes it). -/
def hasDenorm (fields : Fields) (f : String) : Bool :=
  fields.any (fun p => p.1 == f && p.2.denormalizedInverse)

/-
Helper lemmas about the pipeline stages.
-/

theorem runTransform_events (f : Record → Except Err Record) :
    ∀ rs ev, ev ∈ (runTransform f rs).1 → ∃ r ∈ rs, ev = Ev.transformCall r := by
  intro rs
  induction rs with
  | nil => intro ev h; simp [runTransform] at h
  | cons r rest ih =>
      intro ev h
      unfold runTransform at h
      cases hf : f r with
      | error e =>
          rw [hf] at h
          simp at h
          exact ⟨r, by simp, h⟩
      | ok r' =>
          rw [hf] at h
          simp at h
          rcases h with h | h
          · exact ⟨r, by simp, h⟩
          · rcases ih ev h with ⟨r0, hr0, he⟩
            exact ⟨r0, by simp [hr0], he⟩

theorem transformStage_events (env : Env) (rs : List Record) :
    ∀ ev ∈ (transformStage env rs).1, ∃ r ∈ rs, ev = Ev.transformCall r := by
  intro ev h
  unfold transformStage at h
  cases ht : env.transform with
  | none => rw [ht] at h; simp at h
  | some f => rw [ht] at h; exact runTransform_events f rs ev h

theorem runUpdates_events (env : Env) :
    ∀ u ev, ev ∈ (runUpdates env u).1 →
      ∃ t ops, ev = Ev.updateCall t ops ∧ (t, ops) ∈ u ∧ ops ≠ [] := by
  intro u
  induction u with
  | nil => intro ev h; simp [runUpdates] at h
  | cons p rest ih =>
      intro ev h
      obtain ⟨t, ops⟩ := p
      unfold runUpdates at h
      by_cases hops : ops.isEmpty
      · rw [if_pos hops] at h
        rcases ih ev h with ⟨t0, ops0, he, hm, hne⟩
        exact ⟨t0, ops0, he, by simp [hm], hne⟩
      · rw [if_neg hops] at h
        simp at h
        rcases h with h | h
        · refine ⟨t, ops, h, by simp, ?_⟩
          simpa [List.isEmpty_iff] using hops
        · rcases ih ev h with ⟨t0, ops0, he, hm, hne⟩
          exact ⟨t0, ops0, he, by simp [hm], hne⟩

theorem firstSome_eq_none (f : Record → Option Err) :
    ∀ rs, firstSome f rs = none → ∀ r ∈ rs, f r = none := by
  intro rs
  induction rs with
  | nil => intro _ r h; simp at h
  | cons r0 rest ih =>
      intro h r hr
      unfold firstSome at h
      cases hf : f r0 with
      | some e => rw [hf] at h; exact absurd h (by simp)
      | none =>
          rw [hf] at h
          rcases List.mem_cons.mp hr with rfl | hr
          · exact hf
          · exact ih h r hr

theorem enforceStage_enforce_none (env : Env) (rs : List Record)
    (h : enforceStage env rs = none) : ∀ r ∈ rs, env.enforce r = none := by
  unfold enforceStage at h
  cases he : firstSome env.enforce rs with
  | some e => rw [he] at h; exact absurd h (by simp)
  | none => exact firstSome_eq_none env.enforce rs he

theorem createBody_events (env : Env) (rt : RecordTypes) (fields : Fields)
    (links : List String) (rs0 : List Record) :
    ∀ ev ∈ (createBody env rt fields links rs0).trace,
      (∃ r, ev = Ev.transformCall r) ∨ (∃ rs, ev = Ev.createCall rs) ∨
      (∃ t ops, ev = Ev.updateCall t ops) ∨ ev = Ev.commitCall := by
  intro ev hev
  have htr : ∀ e0 ∈ (transformStage env rs0).1, ∃ r, e0 = Ev.transformCall r := by
    intro e0 h0
    rcases transformStage_events env rs0 e0 h0 with ⟨r, _, he⟩
    exact ⟨r, he⟩
  unfold createBody at hev
  split at hev
  next trB e heq =>
    exact Or.inl (htr ev (by rw [heq]; exact hev))
  next trB rs1 heq =>
    have htrB : ∀ e0 ∈ trB, ∃ r, e0 = Ev.transformCall r := by
      intro e0 h0
      exact htr e0 (by rw [heq]; exact h0)
    split at hev
    next => exact Or.inl (htrB ev hev)
    next =>
      split at hev
      next => exact Or.inl (htrB ev hev)
      next =>
        split at hev
        next =>
          simp at hev
          rcases hev with hev | hev
          · exact Or.inl (htrB ev hev)
          · exact Or.inr (Or.inl ⟨rs1, hev⟩)
        next created heqc =>
          have hupd : ∀ upds e0, e0 ∈ (runUpdates env upds).1 →
              ∃ t ops, e0 = Ev.updateCall t ops := by
            intro upds e0 h0
            rcases runUpdates_events env upds e0 h0 with ⟨t, ops, he, _, _⟩
            exact ⟨t, ops, he⟩
          split at hev
          next =>
            simp at hev
            rcases hev with hev | hev
            · exact Or.inl (htrB ev hev)
            · exact Or.inr (Or.inl ⟨rs1, hev⟩)
          next =>
            split at hev
            next upds e hequ =>
              simp at hev
              rcases hev with hev | hev
              · exact Or.inl (htrB ev hev)
              · exact Or.inr (Or.inl ⟨rs1, hev⟩)
            next upds hequ =>
              split at hev
              next trU e hequ2 =>
                simp at hev
                rcases hev with hev | hev | hev
                · exact Or.inl (htrB ev hev)
                · exact Or.inr (Or.inl ⟨rs1, hev⟩)
                · refine Or.inr (Or.inr (Or.inl (hupd upds ev ?_)))
                  rw [hequ2]; exact hev
              next trU hequ2 =>
                split at hev
                next =>
                  simp at hev
                  rcases hev with hev | hev | hev | hev
                  · exact Or.inl (htrB ev hev)
                  · exact Or.inr (Or.inl ⟨rs1, hev⟩)
                  · refine Or.inr (Or.inr (Or.inl (hupd upds ev ?_)))
                    rw [hequ2]; exact hev
                  · exact Or.inr (Or.inr (Or.inr hev))
                next =>
                  simp at hev
                  rcases hev with hev | hev | hev | hev
                  · exact Or.inl (htrB ev hev)
                  · exact Or.inr (Or.inl ⟨rs1, hev⟩)
                  · refine Or.inr (Or.inr (Or.inl (hupd upds ev ?_)))
                    rw [hequ2]; exact hev
                  · exact Or.inr (Or.inr (Or.inr hev))

theorem createBody_ok (env : Env) (rt : RecordTypes) (fields : Fields)
    (links : List String) (rs0 : List Record)
    (h : (createBody env rt fields links rs0).result = Except.ok ()) :
    ∃ trB rs1 created upds,
      transformStage env rs0 = (trB, Except.ok rs1) ∧
      enforceStage env rs1 = none ∧
      env.validateRecords rs1 = none ∧
      env.createRes rs1 = Except.ok created ∧
      created.isEmpty = false ∧
      buildUpdates rt fields links created.reverse [] = (upds, none) ∧
      (runUpdates env upds).2 = none ∧
      env.commitRes = none ∧
      createBody env rt fields links rs0 =
        ⟨trB ++ [Ev.createCall rs1] ++ (runUpdates env upds).1 ++ [Ev.commitCall],
          Except.ok (), some created, upds⟩ := by
  unfold createBody at h ⊢
  split at h
  next trB e heq => simp at h
  next trB rs1 heq =>
    split at h
    next e henf => simp at h
    next henf =>
      split at h
      next e hval => simp at h
      next hval =>
        split at h
        next e heqc => simp at h
        next created heqc =>
          split at h
          next hemp => simp at h
          next hemp =>
            split at h
            next upds e hequ => simp at h
            next upds hequ =>
              split at h
              next trU e hequ2 => simp at h
              next trU hequ2 =>
                split at h
                next e hcommit => simp at h
                next hcommit =>
                  have hemp2 : created ≠ [] := by
                    intro hc; exact hemp (by simp [hc])
                  refine ⟨trB, rs1, created, upds, heq, henf, hval, heqc,
                    by simpa using hemp, hequ, by simp [hequ2], hcommit, ?_⟩
                  simp [heq, henf, hval, heqc, hemp2, hequ, hequ2, hcommit]

theorem createBody_createCall (env : Env) (rt : RecordTypes) (fields : Fields)
    (links : List String) (rs0 : List Record) :
    ∀ rs, Ev.createCall rs ∈ (createBody env rt fields links rs0).trace →
      (transformStage env rs0).2 = Except.ok rs ∧
      enforceStage env rs = none ∧
      env.validateRecords rs = none := by
  intro rs hev
  have hnotB : ∀ trB, (transformStage env rs0).1 = trB →
      Ev.createCall rs ∈ trB → False := by
    intro trB htrB hmem
    rcases transformStage_events env rs0 (Ev.createCall rs)
      (by rw [htrB]; exact hmem) with ⟨r, _, he⟩
    exact absurd he (by simp)
  have hnotU : ∀ upds, Ev.createCall rs ∈ (runUpdates env upds).1 → False := by
    intro upds hmem
    rcases runUpdates_events env upds (Ev.createCall rs) hmem with ⟨t, ops, he, _, _⟩
    exact absurd he (by simp)
  unfold createBody at hev
  split at hev
  next trB e heq =>
    exact absurd hev (fun hmem => hnotB trB (by rw [heq]) hmem)
  next trB rs1 heq =>
    have htrB : Ev.createCall rs ∈ trB → False :=
      fun hmem => hnotB trB (by rw [heq]) hmem
    have hout : rs = rs1 →
        (transformStage env rs0).2 = Except.ok rs := by
      intro hrs; rw [heq, hrs]
    split at hev
    next e henf => exact absurd hev htrB
    next henf =>
      split at hev
      next e hval => exact absurd hev htrB
      next hval =>
        split at hev
        next e heqc =>
          simp at hev
          rcases hev with hev | hev
          · exact absurd hev htrB
          · exact ⟨hout hev, by rw [hev]; exact henf, by rw [hev]; exact hval⟩
        next created heqc =>
          split at hev
          next hemp =>
            simp at hev
            rcases hev with hev | hev
            · exact absurd hev htrB
            · exact ⟨hout hev, by rw [hev]; exact henf, by rw [hev]; exact hval⟩
          next hemp =>
            split at hev
            next upds e hequ =>
              simp at hev
              rcases hev with hev | hev
              · exact absurd hev htrB
              · exact ⟨hout hev, by rw [hev]; exact henf, by rw [hev]; exact hval⟩
            next upds hequ =>
              split at hev
              next trU e hequ2 =>
                simp at hev
                rcases hev with hev | hev | hev
                · exact absurd hev htrB
                · exact ⟨hout hev, by rw [hev]; exact henf, by rw [hev]; exact hval⟩
                · refine absurd ?_ (hnotU upds)
                  rw [hequ2]; exact hev
              next trU hequ2 =>
                split at hev
                next e hcommit =>
                  simp at hev
                  rcases hev with hev | hev | hev
                  · exact absurd hev htrB
                  · exact ⟨hout hev, by rw [hev]; exact henf, by rw [hev]; exact hval⟩
                  · refine absurd ?_ (hnotU upds)
                    rw [hequ2]; exact hev
                next hcommit =>
                  simp at hev
                  rcases hev with hev | hev | hev
                  · exact absurd hev htrB
                  · exact ⟨hout hev, by rw [hev]; exact henf, by rw [hev]; exact hval⟩
                  · refine absurd ?_ (hnotU upds)
                    rw [hequ2]; exact hev

theorem create_none_eq (env : Env) (rt : RecordTypes) (ty : String) :
    create env rt ty none =
      ⟨[], Except.error Err.badRequestCreateRecordsInvalid, none, none, []⟩ := rfl

theorem create_nil_eq (env : Env) (rt : RecordTypes) (ty : String) :
    create env rt ty (some []) =
      ⟨[], Except.error Err.badRequestCreateRecordsInvalid, none, some [], []⟩ := rfl

theorem create_beginFail_eq (env : Env) (rt : RecordTypes) (ty : String)
    (recs : List Record) (e : Err) (hne : recs.isEmpty = false)
    (hb : env.beginTx = Except.error e) :
    create env rt ty (some recs) =
      ⟨[Ev.beginTx], Except.error e, none, some (strippedFor rt ty recs), []⟩ := by
  simp [create, hne, hb, strippedFor, fieldsFor]

theorem create_body_error_eq (env : Env) (rt : RecordTypes) (ty : String)
    (recs : List Record) (e : Err) (hne : recs.isEmpty = false)
    (hb : env.beginTx = Except.ok ())
    (hres : (bodyFor env rt ty recs).result = Except.error e) :
    create env rt ty (some recs) =
      ⟨Ev.beginTx :: ((bodyFor env rt ty recs).trace ++
          [Ev.abortCall e (env.abortRes e)]),
        Except.error e, (bodyFor env rt ty recs).responseRecords,
        some (strippedFor rt ty recs), (bodyFor env rt ty recs).finalUpdates⟩ := by
  simp only [bodyFor, fieldsFor, strippedFor, linksOf] at hres ⊢
  simp [create, hne, hb, hres, linksOf]

theorem create_body_ok_eq (env : Env) (rt : RecordTypes) (ty : String)
    (recs : List Record) (hne : recs.isEmpty = false)
    (hb : env.beginTx = Except.ok ())
    (hres : (bodyFor env rt ty recs).result = Except.ok ()) :
    create env rt ty (some recs) =
      ⟨Ev.beginTx :: ((bodyFor env rt ty recs).trace ++
          [Ev.emit ⟨[(ty, (bodyFor env rt ty recs).responseRecords.getD [])],
            (bodyFor env rt ty recs).finalUpdates.filter (fun p => !p.2.isEmpty)⟩]),
        Except.ok (), (bodyFor env rt ty recs).responseRecords,
        some (strippedFor rt ty recs), (bodyFor env rt ty recs).finalUpdates⟩ := by
  simp only [bodyFor, fieldsFor, strippedFor, linksOf] at hres ⊢
  simp [create, hne, hb, hres, linksOf]

/-- C6: a create request whose payload is missing or an empty sequence fails
with the bad-request error (`BadRequestError` with message
`CreateRecordsInvalid`), and this failure happens before any transaction is
opened: the trace is empty, so `beginTransaction` is never called. -/
theorem create_empty_payload_no_transaction (env : Env) (rt : RecordTypes)
    (ty : String) (payload : Option (List Record))
    (h : payload = none ∨ payload = some []) :
    (create env rt ty payload).result
        = Except.error Err.badRequestCreateRecordsInvalid ∧
    (create env rt ty payload).trace = [] ∧
    Ev.beginTx ∉ (create env rt ty payload).trace := by
  rcases h with rfl | rfl
  · simp [create_none_eq]
  · simp [create_nil_eq]

/-- Witness for `create_empty_payload_no_transaction` at the empty payload. -/
theorem create_empty_payload_no_transaction_witness :
    (some ([] : List Record) = none ∨ some ([] : List Record) = some []) ∧
    ((create envOK rtArr "person" (some [])).result
        = Except.error Err.badRequestCreateRecordsInvalid ∧
      (create envOK rtArr "person" (some [])).trace = [] ∧
      Ev.beginTx ∉ (create envOK rtArr "person" (some [])).trace) :=
  ⟨Or.inr rfl,
    create_empty_payload_no_transaction envOK rtArr "person" (some [])
      (Or.inr rfl)⟩

/-- C5: whenever the backend create call happens at all, every record of the
batch it is invoked on passed field enforcement (and, incidentally, the link
check and record validation): a single enforcement failure means
`transaction.create` is never reached for that batch. -/
theorem create_enforce_before_backend_create (env : Env) (rt : RecordTypes)
    (ty : String) (payload : Option (List Record)) (rs : List Record)
    (h : Ev.createCall rs ∈ (create env rt ty payload).trace) :
    ∀ r ∈ rs, env.enforce r = none := by
  rcases payload with _ | recs
  · rw [create_none_eq] at h; simp at h
  · cases hne : recs.isEmpty with
    | true =>
        rw [List.isEmpty_iff.mp hne] at h
        rw [create_nil_eq] at h; simp at h
    | false =>
        cases hb : env.beginTx with
        | error e =>
            rw [create_beginFail_eq env rt ty recs e hne hb] at h
            simp at h
        | ok u =>
            cases u
            have hbody : Ev.createCall rs ∈ (bodyFor env rt ty recs).trace →
                ∀ r ∈ rs, env.enforce r = none := by
              intro hmem
              simp only [bodyFor] at hmem
              have hcc := createBody_createCall env rt (fieldsFor rt ty)
                (linksOf (fieldsFor rt ty)) (strippedFor rt ty recs) rs hmem
              exact enforceStage_enforce_none env rs hcc.2.1
            cases hres : (bodyFor env rt ty recs).result with
            | error e =>
                rw [create_body_error_eq env rt ty recs e hne hb hres] at h
                simp at h
                exact hbody h
            | ok u2 =>
                cases u2
                rw [create_body_ok_eq env rt ty recs hne hb hres] at h
                simp at h
                exact hbody h

/-- Witness for `create_enforce_before_backend_create`: in the fully
successful run the backend create call is present in the trace, and every
record of its batch passes enforcement. -/
theorem create_enforce_before_backend_create_witness :
    Ev.createCall (strippedFor rtArr "person" [pIn1, pIn2])
        ∈ (create envOK rtArr "person" (some [pIn1, pIn2])).trace ∧
    (∀ r ∈ strippedFor rtArr "person" [pIn1, pIn2], envOK.enforce r = none) :=
  ⟨by decide,
    create_enforce_before_backend_create envOK rtArr "person"
      (some [pIn1, pIn2]) (strippedFor rtArr "person" [pIn1, pIn2]) (by decide)⟩

theorem runUpdates_abortRes_irrel (env : Env) (g : Err → Option Err) :
    ∀ u, runUpdates { env with abortRes := g } u = runUpdates env u := by
  intro u
  induction u with
  | nil => rfl
  | cons p rest ih =>
      obtain ⟨t, ops⟩ := p
      unfold runUpdates
      rw [ih]

theorem createBody_abortRes_irrel (env : Env) (g : Err → Option Err)
    (rt : RecordTypes) (fs : Fields) (ls : List String) (rs0 : List Record) :
    createBody { env with abortRes := g } rt fs ls rs0
      = createBody env rt fs ls rs0 := by
  unfold createBody
  simp only [
    show transformStage { env with abortRes := g } = transformStage env from rfl,
    show enforceStage { env with abortRes := g } = enforceStage env from rfl,
    show ({ env with abortRes := g } : Env).validateRecords
      = env.validateRecords from rfl,
    show ({ env with abortRes := g } : Env).createRes = env.createRes from rfl,
    show ({ env with abortRes := g } : Env).commitRes = env.commitRes from rfl,
    show runUpdates { env with abortRes := g } = runUpdates env from
      funext (runUpdates_abortRes_irrel env g)]

/-- C1: the abort policy of the catch handler (lines 166-169).  (1) When a
request fails after the transaction was successfully opened, the trace ends
with exactly one `endTransaction(error)` call carrying the propagated error
itself — the trace records the abort call's own (possibly failing) result,
while the propagated result stays the original error.  (2) The settled result
is independent of the abort call's behaviour: a failing abort never replaces
the original error.  (3) When the failure happens before a transaction is
opened (missing/empty payload, or `beginTransaction` itself failing),
`endTransaction` is never called. -/
theorem create_abort_policy (env : Env) (rt : RecordTypes) (ty : String)
    (payload : Option (List Record)) :
    (∀ e recs, payload = some recs → recs.isEmpty = false →
      env.beginTx = Except.ok () →
      (create env rt ty payload).result = Except.error e →
      ∃ pre, (create env rt ty payload).trace
          = pre ++ [Ev.abortCall e (env.abortRes e)] ∧
        ∀ ev ∈ pre, isAbort ev = false) ∧
    (∀ g, (create { env with abortRes := g } rt ty payload).result
        = (create env rt ty payload).result) ∧
    ((payload = none ∨ payload = some [] ∨
        (∃ e0, env.beginTx = Except.error e0)) →
      ∀ ev ∈ (create env rt ty payload).trace, isAbort ev = false) := by
  refine ⟨?_, ?_, ?_⟩
  · rintro e recs rfl hne hb h
    cases hres : (bodyFor env rt ty recs).result with
    | ok u =>
        cases u
        rw [create_body_ok_eq env rt ty recs hne hb hres] at h
        simp at h
    | error e' =>
        rw [create_body_error_eq env rt ty recs e' hne hb hres] at h ⊢
        simp at h
        subst h
        refine ⟨Ev.beginTx :: (bodyFor env rt ty recs).trace, by simp, ?_⟩
        intro ev hev
        rcases List.mem_cons.mp hev with rfl | hev
        · rfl
        · simp only [bodyFor] at hev
          rcases createBody_events env rt (fieldsFor rt ty)
            (linksOf (fieldsFor rt ty)) (strippedFor rt ty recs) ev hev with
            ⟨r, rfl⟩ | ⟨rs, rfl⟩ | ⟨t, ops, rfl⟩ | rfl <;> rfl
  · intro g
    rcases payload with _ | recs
    · rfl
    · cases hne : recs.isEmpty with
      | true => rw [List.isEmpty_iff.mp hne]; rfl
      | false =>
          set env2 : Env := { env with abortRes := g } with henv2
          have hb2 : env2.beginTx = env.beginTx := rfl
          have hbody2 : bodyFor env2 rt ty recs = bodyFor env rt ty recs := by
            rw [henv2]
            simp only [bodyFor]
            exact createBody_abortRes_irrel env g rt (fieldsFor rt ty)
              (linksOf (fieldsFor rt ty)) (strippedFor rt ty recs)
          cases hb : env.beginTx with
          | error e =>
              rw [create_beginFail_eq env2 rt ty recs e hne (hb2.trans hb),
                create_beginFail_eq env rt ty recs e hne hb]
          | ok u =>
              cases u
              cases hres : (bodyFor env rt ty recs).result with
              | error e =>
                  rw [create_body_error_eq env2 rt ty recs e hne (hb2.trans hb)
                      (by rw [hbody2]; exact hres),
                    create_body_error_eq env rt ty recs e hne hb hres]
              | ok u2 =>
                  cases u2
                  rw [create_body_ok_eq env2 rt ty recs hne (hb2.trans hb)
                      (by rw [hbody2]; exact hres),
                    create_body_ok_eq env rt ty recs hne hb hres]
  · intro h ev hev
    rcases payload with _ | recs
    · rw [create_none_eq] at hev; simp at hev
    · cases hne : recs.isEmpty with
      | true =>
          rw [List.isEmpty_iff.mp hne] at hev
          rw [create_nil_eq] at hev; simp at hev
      | false =>
          rcases h with h | h | ⟨e0, h⟩
          · exact absurd h (by simp)
          · rw [h] at hev; rw [create_nil_eq] at hev; simp at hev
          · rw [create_beginFail_eq env rt ty recs e0 hne h] at hev
            simp at hev
            subst hev
            rfl

/-- Witness for `create_abort_policy`: enforcement fails with error 7 after
the transaction opened, the abort call itself fails with error 99, yet the
trace ends with the abort call carrying error 7 and the settled result is
still error 7. -/
theorem create_abort_policy_witness :
    (([pIn1] : List Record).isEmpty = false ∧
      envEnfFail.beginTx = Except.ok () ∧
      envEnfFail.abortRes (Err.ext 7) = some (Err.ext 99) ∧
      (create envEnfFail rtArr "person" (some [pIn1])).result
        = Except.error (Err.ext 7)) ∧
    (∃ pre, (create envEnfFail rtArr "person" (some [pIn1])).trace
        = pre ++ [Ev.abortCall (Err.ext 7) (envEnfFail.abortRes (Err.ext 7))] ∧
      ∀ ev ∈ pre, isAbort ev = false) :=
  ⟨⟨by decide, rfl, rfl, rfl⟩,
    (create_abort_policy envEnfFail rtArr "person" (some [pIn1])).1
      (Err.ext 7) [pIn1] rfl (by decide) rfl rfl⟩

theorem createBody_no_emit_count (env : Env) (rt : RecordTypes)
    (fields : Fields) (links : List String) (rs0 : List Record) :
    ((createBody env rt fields links rs0).trace.countP isEmit) = 0 := by
  rw [List.countP_eq_zero]
  intro ev hev
  rcases createBody_events env rt fields links rs0 ev hev with
    ⟨r, rfl⟩ | ⟨rs, rfl⟩ | ⟨t, ops, rfl⟩ | rfl <;> simp [isEmit]

/-- C4: the change event is emitted exactly once per successful create
request, as the last step after the commit call, and never when the request
fails (the trace of a failed request contains no emission at all). -/
theorem create_event_after_commit (env : Env) (rt : RecordTypes) (ty : String)
    (payload : Option (List Record)) :
    ((create env rt ty payload).result = Except.ok () →
      (∃ pre ev, (create env rt ty payload).trace
          = pre ++ [Ev.commitCall, Ev.emit ev]) ∧
      ((create env rt ty payload).trace.countP isEmit) = 1) ∧
    (∀ e, (create env rt ty payload).result = Except.error e →
      ((create env rt ty payload).trace.countP isEmit) = 0) := by
  constructor
  · intro h
    rcases payload with _ | recs
    · rw [create_none_eq] at h; simp at h
    · cases hne : recs.isEmpty with
      | true =>
          rw [List.isEmpty_iff.mp hne] at h ⊢
          rw [create_nil_eq] at h; simp at h
      | false =>
          cases hb : env.beginTx with
          | error e =>
              rw [create_beginFail_eq env rt ty recs e hne hb] at h; simp at h
          | ok u =>
              cases u
              cases hres : (bodyFor env rt ty recs).result with
              | error e =>
                  rw [create_body_error_eq env rt ty recs e hne hb hres] at h
                  simp at h
              | ok u2 =>
                  cases u2
                  rw [create_body_ok_eq env rt ty recs hne hb hres]
                  have h0 : ((bodyFor env rt ty recs).trace.countP isEmit) = 0 := by
                    simp only [bodyFor]
                    exact createBody_no_emit_count env rt (fieldsFor rt ty)
                      (linksOf (fieldsFor rt ty)) (strippedFor rt ty recs)
                  constructor
                  · obtain ⟨trB, rs1, created, upds, hts, henf, hval, hcr, hemp,
                      hbu, hru, hcm, hbeq⟩ :=
                      createBody_ok env rt (fieldsFor rt ty)
                        (linksOf (fieldsFor rt ty)) (strippedFor rt ty recs)
                        (by simpa only [bodyFor] using hres)
                    refine ⟨Ev.beginTx ::
                        (trB ++ [Ev.createCall rs1] ++ (runUpdates env upds).1),
                      ⟨[(ty, (bodyFor env rt ty recs).responseRecords.getD [])],
                        (bodyFor env rt ty recs).finalUpdates.filter
                          (fun p => !p.2.isEmpty)⟩, ?_⟩
                    simp only [bodyFor, hbeq]
                    simp [List.append_assoc]
                  · simp [List.countP_cons, List.countP_append, h0, isEmit]
  · intro e h
    rcases payload with _ | recs
    · rw [create_none_eq]; simp
    · cases hne : recs.isEmpty with
      | true =>
          rw [List.isEmpty_iff.mp hne]
          rw [create_nil_eq]; simp
      | false =>
          cases hb : env.beginTx with
          | error e0 =>
              rw [create_beginFail_eq env rt ty recs e0 hne hb]
              simp [isEmit]
          | ok u =>
              cases u
              have h0 : ((bodyFor env rt ty recs).trace.countP isEmit) = 0 := by
                simp only [bodyFor]
                exact createBody_no_emit_count env rt (fieldsFor rt ty)
                  (linksOf (fieldsFor rt ty)) (strippedFor rt ty recs)
              cases hres : (bodyFor env rt ty recs).result with
              | error e2 =>
                  rw [create_body_error_eq env rt ty recs e2 hne hb hres]
                  simp [List.countP_cons, List.countP_append, h0, isEmit]
              | ok u2 =>
                  cases u2
                  rw [create_body_ok_eq env rt ty recs hne hb hres] at h
                  simp at h

/-- Witness for `create_event_after_commit`: the fully successful request
emits exactly once, right after the commit. -/
theorem create_event_after_commit_witness :
    (create envOK rtArr "person" (some [pIn1, pIn2])).result = Except.ok () ∧
    ((∃ pre ev, (create envOK rtArr "person" (some [pIn1, pIn2])).trace
        = pre ++ [Ev.commitCall, Ev.emit ev]) ∧
      ((create envOK rtArr "person" (some [pIn1, pIn2])).trace.countP isEmit)
        = 1) :=
  ⟨rfl,
    (create_event_after_commit envOK rtArr "person" (some [pIn1, pIn2])).1 rfl⟩

/-- C3: when the backend's create call returns an empty result set, the
request fails with the backend-contract-violation error — realized in the
code as `BadRequestError` with message `CreateRecordsFail`, distinct from the
empty-payload error — the transaction is aborted with that error, the create
call is made exactly once (no retry), the commit is never reached and no
change event is emitted. -/
theorem create_empty_backend_result (env : Env) (rt : RecordTypes)
    (ty : String) (recs : List Record) (trB : List Ev) (rs1 : List Record)
    (hne : recs.isEmpty = false)
    (hb : env.beginTx = Except.ok ())
    (ht : transformStage env (strippedFor rt ty recs) = (trB, Except.ok rs1))
    (he : enforceStage env rs1 = none)
    (hv : env.validateRecords rs1 = none)
    (hc : env.createRes rs1 = Except.ok []) :
    (create env rt ty (some recs)).result
        = Except.error Err.badRequestCreateRecordsFail ∧
    (create env rt ty (some recs)).trace
      = Ev.beginTx :: (trB ++ [Ev.createCall rs1,
          Ev.abortCall Err.badRequestCreateRecordsFail
            (env.abortRes Err.badRequestCreateRecordsFail)]) ∧
    ((create env rt ty (some recs)).trace.countP isCreateCall) = 1 ∧
    Ev.commitCall ∉ (create env rt ty (some recs)).trace ∧
    (∀ ev, Ev.emit ev ∉ (create env rt ty (some recs)).trace) := by
  have hbody : bodyFor env rt ty recs
      = ⟨trB ++ [Ev.createCall rs1],
          Except.error Err.badRequestCreateRecordsFail, some [], []⟩ := by
    unfold bodyFor createBody
    rw [ht]
    simp [he, hv, hc]
  have hres : (bodyFor env rt ty recs).result
      = Except.error Err.badRequestCreateRecordsFail := by rw [hbody]
  have hcreate := create_body_error_eq env rt ty recs
    Err.badRequestCreateRecordsFail hne hb hres
  have htrB : ∀ ev ∈ trB, ∃ r, ev = Ev.transformCall r := by
    intro ev hev
    rcases transformStage_events env (strippedFor rt ty recs) ev
      (by rw [ht]; exact hev) with ⟨r, _, hr⟩
    exact ⟨r, hr⟩
  rw [hcreate, hbody]
  refine ⟨rfl, by simp, ?_, ?_, ?_⟩
  · have h0 : trB.countP isCreateCall = 0 := by
      rw [List.countP_eq_zero]
      intro ev hev
      rcases htrB ev hev with ⟨r, rfl⟩
      simp [isCreateCall]
    simp [List.countP_cons, List.countP_append, h0, isCreateCall]
  · intro hmem
    simp at hmem
    rcases htrB _ hmem with ⟨r, hr⟩
    exact absurd hr (by simp)
  · intro ev hmem
    simp at hmem
    rcases htrB _ hmem with ⟨r, hr⟩
    exact absurd hr (by simp)

/-- Witness for `create_empty_backend_result`: a backend returning an empty
created-record set fails the request with `CreateRecordsFail`, with no commit
and no event. -/
theorem create_empty_backend_result_witness :
    envEmptyRes.createRes (strippedFor rtArr "person" [pIn1]) = Except.ok [] ∧
    (create envEmptyRes rtArr "person" (some [pIn1])).result
        = Except.error Err.badRequestCreateRecordsFail ∧
    Ev.commitCall ∉ (create envEmptyRes rtArr "person" (some [pIn1])).trace ∧
    (∀ ev, Ev.emit ev
        ∉ (create envEmptyRes rtArr "person" (some [pIn1])).trace) := by
  have h := create_empty_backend_result envEmptyRes rtArr "person" [pIn1] []
    (strippedFor rtArr "person" [pIn1]) (by decide) rfl rfl rfl rfl rfl
  exact ⟨rfl, h.1, h.2.2.2.1, h.2.2.2.2⟩

theorem assocGet_cons {β : Type} (a f : String) (v : β)
    (l : List (String × β)) :
    assocGet f ((a, v) :: l) = if a = f then some v else assocGet f l := rfl

theorem eraseField_cons (a f : String) (v : Value) (rest : Record) :
    eraseField ((a, v) :: rest) f
      = if a = f then eraseField rest f else (a, v) :: eraseField rest f := by
  simp only [eraseField, List.filter_cons]
  by_cases haf : a = f <;> simp [haf]

theorem assocGet_eraseField (r : Record) (f g : String) :
    assocGet g (eraseField r f) = if g = f then none else assocGet g r := by
  induction r with
  | nil => simp [eraseField, assocGet]
  | cons p rest ih =>
      obtain ⟨a, v⟩ := p
      rw [eraseField_cons]
      by_cases haf : a = f <;> by_cases hgf : g = f <;> by_cases hag : a = g <;>
        simp_all [assocGet_cons]

theorem assocGet_stripDenorm (fields : Fields) (r : Record) (f : String) :
    assocGet f (stripDenorm fields r)
      = if hasDenorm fields f then none else assocGet f r := by
  induction fields generalizing r with
  | nil => simp [stripDenorm, hasDenorm]
  | cons p rest ih =>
      obtain ⟨g, gd⟩ := p
      simp only [stripDenorm]
      cases hd : gd.denormalizedInverse with
      | false =>
          rw [if_neg (by simp [hd])]
          rw [ih]
          simp only [hasDenorm, List.any_cons, hd, Bool.and_false,
            Bool.false_or]
      | true =>
          rw [if_pos rfl]
          rw [ih, assocGet_eraseField]
          simp only [hasDenorm, List.any_cons, hd, Bool.and_true]
          by_cases hgf : g = f
          · subst hgf
            simp
          · have hfg : f = g → False := fun h => hgf h.symm
            have hb : (g == f) = false := by
              simp only [beq_eq_false_iff_ne, ne_eq]
              exact hgf
            rw [hb, Bool.false_or, if_neg hfg]

theorem createBody_trace_decomp (env : Env) (rt : RecordTypes)
    (fields : Fields) (links : List String) (rs0 : List Record) :
    ∃ extra, (createBody env rt fields links rs0).trace
        = (transformStage env rs0).1 ++ extra ∧
      ∀ ev ∈ extra, (∃ rs, ev = Ev.createCall rs) ∨
        (∃ t ops, ev = Ev.updateCall t ops) ∨ ev = Ev.commitCall := by
  unfold createBody
  split
  next trB e heq => exact ⟨[], by simp [heq], by simp⟩
  next trB rs1 heq =>
    have htrB : (transformStage env rs0).1 = trB := by rw [heq]
    split
    next e henf => exact ⟨[], by simp [htrB], by simp⟩
    next henf =>
      split
      next e hval => exact ⟨[], by simp [htrB], by simp⟩
      next hval =>
        split
        next e heqc => exact ⟨[Ev.createCall rs1], by simp [htrB], by simp⟩
        next created heqc =>
          split
          next hemp => exact ⟨[Ev.createCall rs1], by simp [htrB], by simp⟩
          next hemp =>
            split
            next upds e hequ =>
                exact ⟨[Ev.createCall rs1], by simp [htrB], by simp⟩
            next upds hequ =>
              have hU : ∀ ev ∈ (runUpdates env upds).1,
                  (∃ rs, ev = Ev.createCall rs) ∨
                  (∃ t ops, ev = Ev.updateCall t ops) ∨ ev = Ev.commitCall := by
                intro ev hev
                rcases runUpdates_events env upds ev hev with ⟨t, ops, hev2, _, _⟩
                exact Or.inr (Or.inl ⟨t, ops, hev2⟩)
              split
              next trU e hequ2 =>
                refine ⟨[Ev.createCall rs1] ++ trU, by simp [htrB], ?_⟩
                intro ev hev
                simp at hev
                rcases hev with hev | hev
                · exact Or.inl ⟨rs1, hev⟩
                · exact hU ev (by rw [hequ2]; exact hev)
              next trU hequ2 =>
                split
                next e hcommit =>
                  refine ⟨[Ev.createCall rs1] ++ trU ++ [Ev.commitCall],
                    by simp [htrB], ?_⟩
                  intro ev hev
                  simp at hev
                  rcases hev with hev | hev | hev
                  · exact Or.inl ⟨rs1, hev⟩
                  · exact hU ev (by rw [hequ2]; exact hev)
                  · exact Or.inr (Or.inr hev)
                next hcommit =>
                  refine ⟨[Ev.createCall rs1] ++ trU ++ [Ev.commitCall],
                    by simp [htrB], ?_⟩
                  intro ev hev
                  simp at hev
                  rcases hev with hev | hev | hev
                  · exact Or.inl ⟨rs1, hev⟩
                  · exact hU ev (by rw [hequ2]; exact hev)
                  · exact Or.inr (Or.inr hev)

theorem create_trace_unwrap (env : Env) (rt : RecordTypes) (ty : String)
    (recs : List Record) (hne : recs.isEmpty = false)
    (hb : env.beginTx = Except.ok ()) :
    ∀ ev ∈ (create env rt ty (some recs)).trace,
      ev = Ev.beginTx ∨ ev ∈ (bodyFor env rt ty recs).trace ∨
      (∃ e o, ev = Ev.abortCall e o) ∨ (∃ d, ev = Ev.emit d) := by
  intro ev hev
  cases hres : (bodyFor env rt ty recs).result with
  | error e =>
      rw [create_body_error_eq env rt ty recs e hne hb hres] at hev
      simp at hev
      rcases hev with rfl | hev | rfl
      · exact Or.inl rfl
      · exact Or.inr (Or.inl hev)
      · exact Or.inr (Or.inr (Or.inl ⟨e, env.abortRes e, rfl⟩))
  | ok u =>
      cases u
      rw [create_body_ok_eq env rt ty recs hne hb hres] at hev
      simp at hev
      rcases hev with rfl | hev | rfl
      · exact Or.inl rfl
      · exact Or.inr (Or.inl hev)
      · exact Or.inr (Or.inr (Or.inr ⟨_, rfl⟩))

theorem create_callerPayload_stripped (env : Env) (rt : RecordTypes)
    (ty : String) (recs : List Record) (hne : recs.isEmpty = false) :
    (create env rt ty (some recs)).callerPayload
      = some (strippedFor rt ty recs) := by
  cases hb : env.beginTx with
  | error e => rw [create_beginFail_eq env rt ty recs e hne hb]
  | ok u =>
      cases u
      cases hres : (bodyFor env rt ty recs).result with
      | error e => rw [create_body_error_eq env rt ty recs e hne hb hres]
      | ok u2 =>
          cases u2
          rw [create_body_ok_eq env rt ty recs hne hb hres]

theorem create_transformCall_stripped (env : Env) (rt : RecordTypes)
    (ty : String) (recs : List Record) (hne : recs.isEmpty = false) :
    ∀ r, Ev.transformCall r ∈ (create env rt ty (some recs)).trace →
      ∃ r0 ∈ recs, r = stripDenorm (fieldsFor rt ty) r0 := by
  intro r hr
  cases hb : env.beginTx with
  | error e =>
      rw [create_beginFail_eq env rt ty recs e hne hb] at hr
      simp at hr
  | ok u =>
      cases u
      rcases create_trace_unwrap env rt ty recs hne hb _ hr with
        heq | hmem | ⟨e, o, heq⟩ | ⟨d, heq⟩
      · exact absurd heq (by simp)
      · simp only [bodyFor] at hmem
        obtain ⟨extra, hdec, hex⟩ := createBody_trace_decomp env rt
          (fieldsFor rt ty) (linksOf (fieldsFor rt ty)) (strippedFor rt ty recs)
        rw [hdec] at hmem
        rcases List.mem_append.mp hmem with hmem | hmem
        · rcases transformStage_events env _ _ hmem with ⟨r0, hr0, heq⟩
          obtain rfl : r = r0 := by injection heq
          simp only [strippedFor] at hr0
          rcases List.mem_map.mp hr0 with ⟨r1, hr1, heq1⟩
          exact ⟨r1, hr1, heq1.symm⟩
        · rcases hex _ hmem with ⟨rs, h⟩ | ⟨t, ops, h⟩ | h <;>
            exact absurd h (by simp)
      · exact absurd heq (by simp)
      · exact absurd heq (by simp)

/-- C8: every field marked `denormalizedInverse` is stripped from every
candidate record before any record is handed to the input transform or
persisted: the caller's payload objects are replaced by their stripped form
(before `beginTransaction`, hence for every possible outcome), each input
transform invocation receives a stripped record containing no denormalized
field, and — when no input transform is declared — the batch handed to the
backend create call is exactly the stripped payload, free of denormalized
fields. -/
theorem create_strip_denormalized (env : Env) (rt : RecordTypes) (ty : String)
    (recs : List Record) (hne : recs.isEmpty = false) :
    (create env rt ty (some recs)).callerPayload
        = some (strippedFor rt ty recs) ∧
    (∀ r, Ev.transformCall r ∈ (create env rt ty (some recs)).trace →
      ∃ r0 ∈ recs, r = stripDenorm (fieldsFor rt ty) r0) ∧
    (∀ r, Ev.transformCall r ∈ (create env rt ty (some recs)).trace →
      ∀ f, hasDenorm (fieldsFor rt ty) f = true → assocGet f r = none) ∧
    (env.transform = none →
      ∀ rs, Ev.createCall rs ∈ (create env rt ty (some recs)).trace →
        rs = strippedFor rt ty recs ∧
        ∀ r ∈ rs, ∀ f, hasDenorm (fieldsFor rt ty) f = true →
          assocGet f r = none) := by
  refine ⟨create_callerPayload_stripped env rt ty recs hne,
    create_transformCall_stripped env rt ty recs hne, ?_, ?_⟩
  · intro r hr f hf
    rcases create_transformCall_stripped env rt ty recs hne r hr with
      ⟨r0, _, rfl⟩
    rw [assocGet_stripDenorm, if_pos hf]
  · intro htr rs hmem
    have hstage : (transformStage env (strippedFor rt ty recs)).2
        = Except.ok rs := by
      cases hb : env.beginTx with
      | error e =>
          rw [create_beginFail_eq env rt ty recs e hne hb] at hmem
          simp at hmem
      | ok u =>
          cases u
          rcases create_trace_unwrap env rt ty recs hne hb _ hmem with
            heq | hmem2 | ⟨e, o, heq⟩ | ⟨d, heq⟩
          · exact absurd heq (by simp)
          · simp only [bodyFor] at hmem2
            exact (createBody_createCall env rt (fieldsFor rt ty)
              (linksOf (fieldsFor rt ty)) (strippedFor rt ty recs) rs hmem2).1
          · exact absurd heq (by simp)
          · exact absurd heq (by simp)
    rw [transformStage, htr] at hstage
    have hrs : rs = strippedFor rt ty recs := by
      injection hstage with h
      exact h.symm
    subst hrs
    refine ⟨rfl, ?_⟩
    intro r hrmem f hf
    simp only [strippedFor] at hrmem
    rcases List.mem_map.mp hrmem with ⟨r1, _, rfl⟩
    rw [assocGet_stripDenorm, if_pos hf]

/-- Witness for `create_strip_denormalized`: with the identity transform
declared, the caller-supplied `secret` field (a denormalized inverse field of
`person`) is gone from the payload, from every transform input and from the
batch the backend receives. -/
theorem create_strip_denormalized_witness :
    ([pIn1, pIn2] : List Record).isEmpty = false ∧
    (create envIdT rtArr "person" (some [pIn1, pIn2])).callerPayload
      = some (strippedFor rtArr "person" [pIn1, pIn2]) ∧
    (∀ r, Ev.transformCall r
        ∈ (create envIdT rtArr "person" (some [pIn1, pIn2])).trace →
      ∀ f, hasDenorm (fieldsFor rtArr "person") f = true →
        assocGet f r = none) :=
  ⟨by decide,
    (create_strip_denormalized envIdT rtArr "person" [pIn1, pIn2]
      (by decide)).1,
    (create_strip_denormalized envIdT rtArr "person" [pIn1, pIn2]
      (by decide)).2.2.1⟩

/-- C10: the dispatcher mutates the caller's payload records in place: after
any run on a non-empty payload — in particular after a failed request — the
caller's records are exactly their stripped forms (denormalized fields
removed, every other field untouched), and this happens before the
transaction is opened since it holds even when `beginTransaction` fails. -/
theorem create_payload_inplace_mutation (env : Env) (rt : RecordTypes)
    (ty : String) (recs : List Record) (hne : recs.isEmpty = false) :
    (create env rt ty (some recs)).callerPayload
        = some (strippedFor rt ty recs) ∧
    (∀ e, (create env rt ty (some recs)).result = Except.error e →
      (create env rt ty (some recs)).callerPayload
        = some (strippedFor rt ty recs)) ∧
    (∀ r ∈ recs, ∀ f, hasDenorm (fieldsFor rt ty) f = true →
      assocGet f (stripDenorm (fieldsFor rt ty) r) = none) ∧
    (∀ r ∈ recs, ∀ f, hasDenorm (fieldsFor rt ty) f = false →
      assocGet f (stripDenorm (fieldsFor rt ty) r) = assocGet f r) := by
  refine ⟨create_callerPayload_stripped env rt ty recs hne,
    fun e _ => create_callerPayload_stripped env rt ty recs hne, ?_, ?_⟩
  · intro r _ f hf
    rw [assocGet_stripDenorm, if_pos hf]
  · intro r _ f hf
    rw [assocGet_stripDenorm, if_neg (by simp [hf])]

/-- Witness for `create_payload_inplace_mutation`: the request aborts on an
enforcement failure, yet the caller's payload objects stay stripped of the
`secret` field while the `name` field survives unchanged. -/
theorem create_payload_inplace_mutation_witness :
    ([pIn1] : List Record).isEmpty = false ∧
    (create envEnfFail rtArr "person" (some [pIn1])).result
      = Except.error (Err.ext 7) ∧
    (create envEnfFail rtArr "person" (some [pIn1])).callerPayload
      = some (strippedFor rtArr "person" [pIn1]) ∧
    (∀ r ∈ ([pIn1] : List Record),
      assocGet "secret" (stripDenorm (fieldsFor rtArr "person") r) = none) ∧
    (∀ r ∈ ([pIn1] : List Record),
      assocGet "name" (stripDenorm (fieldsFor rtArr "person") r)
        = assocGet "name" r) := by
  have h := create_payload_inplace_mutation envEnfFail rtArr "person" [pIn1]
    (by decide)
  refine ⟨by decide, rfl, h.2.1 (Err.ext 7) rfl, ?_, ?_⟩
  · intro r hr
    exact h.2.2.1 r hr "secret" (by decide)
  · intro r hr
    exact h.2.2.2 r hr "name" (by decide)

theorem assocGet_eq_none_iff {β : Type} (t : String)
    (u : List (String × β)) :
    assocGet t u = none ↔ t ∉ u.map Prod.fst := by
  induction u with
  | nil => simp [assocGet]
  | cons p rest ih =>
      obtain ⟨s, x⟩ := p
      by_cases hst : s = t
      · subst hst
        simp [assocGet_cons]
      · have hts : ¬(t = s) := fun h => hst h.symm
        simp [assocGet_cons, hst, hts, ih]

theorem mem_keys_of_assocGet {β : Type} (t : String) (x : β)
    (u : List (String × β)) (h : assocGet t u = some x) :
    t ∈ u.map Prod.fst := by
  by_contra hmem
  rw [← assocGet_eq_none_iff] at hmem
  rw [hmem] at h
  exact absurd h (by simp)

theorem assocGet_of_mem_nodup {β : Type} (t : String) (x : β)
    (u : List (String × β)) (hnd : (u.map Prod.fst).Nodup)
    (hmem : (t, x) ∈ u) : assocGet t u = some x := by
  induction u with
  | nil => simp at hmem
  | cons p rest ih =>
      obtain ⟨s, y⟩ := p
      simp only [List.map_cons, List.nodup_cons] at hnd
      rcases List.mem_cons.mp hmem with heq | hmem2
      · rw [Prod.mk.injEq] at heq
        obtain ⟨rfl, rfl⟩ := heq
        simp [assocGet_cons]
      · have hst : ¬(s = t) := by
          intro h
          subst h
          exact hnd.1 (by simpa using List.mem_map_of_mem Prod.fst hmem2)
        rw [assocGet_cons, if_neg hst]
        exact ih hnd.2 hmem2

theorem assocGet_append_of_none {β : Type} (t : String)
    (u v : List (String × β)) (h : assocGet t u = none) :
    assocGet t (u ++ v) = assocGet t v := by
  induction u with
  | nil => simp
  | cons p rest ih =>
      obtain ⟨s, x⟩ := p
      rw [assocGet_cons] at h
      by_cases hst : s = t
      · rw [if_pos hst] at h; exact absurd h (by simp)
      · rw [if_neg hst] at h
        rw [List.cons_append, assocGet_cons, if_neg hst]
        exact ih h

theorem assocGet_append_of_some {β : Type} (t : String)
    (u v : List (String × β)) (x : β) (h : assocGet t u = some x) :
    assocGet t (u ++ v) = some x := by
  induction u with
  | nil => simp [assocGet] at h
  | cons p rest ih =>
      obtain ⟨s, y⟩ := p
      rw [List.cons_append, assocGet_cons]
      rw [assocGet_cons] at h
      by_cases hst : s = t
      · rw [if_pos hst] at h ⊢; exact h
      · rw [if_neg hst] at h ⊢; exact ih h

theorem assocGet_updSet_self (u : Updates) (t : String)
    (ops : List UpdateOp) : assocGet t (updSet u t ops) = some ops := by
  induction u with
  | nil => simp [updSet, assocGet_cons]
  | cons p rest ih =>
      obtain ⟨s, o⟩ := p
      by_cases hst : s = t
      · rw [updSet, if_pos hst, assocGet_cons, if_pos rfl]
      · rw [updSet, if_neg hst, assocGet_cons, if_neg hst]
        exact ih

theorem assocGet_updSet_other (u : Updates) (t s : String)
    (ops : List UpdateOp) (hst : s ≠ t) :
    assocGet s (updSet u t ops) = assocGet s u := by
  induction u with
  | nil =>
      rw [updSet, assocGet_cons, if_neg (fun h => hst h.symm)]
  | cons p rest ih =>
      obtain ⟨a, o⟩ := p
      by_cases hat : a = t
      · rw [updSet, if_pos hat, assocGet_cons, if_neg (fun h => hst h.symm),
          assocGet_cons, if_neg (by rw [hat]; exact fun h => hst h.symm)]
      · rw [updSet, if_neg hat, assocGet_cons, assocGet_cons]
        by_cases has : a = s
        · rw [if_pos has, if_pos has]
        · rw [if_neg has, if_neg has]
          exact ih

theorem updGet_updSet_self (u : Updates) (t : String) (ops : List UpdateOp) :
    updGet (updSet u t ops) t = ops := by
  rw [updGet, assocGet_updSet_self]
  rfl

theorem updGet_updSet_other (u : Updates) (t s : String)
    (ops : List UpdateOp) (hst : s ≠ t) :
    updGet (updSet u t ops) s = updGet u s := by
  rw [updGet, assocGet_updSet_other u t s ops hst]
  rfl

theorem updSet_keys (u : Updates) (t : String) (ops : List UpdateOp)
    (hmem : t ∈ u.map Prod.fst) :
    (updSet u t ops).map Prod.fst = u.map Prod.fst := by
  induction u with
  | nil => simp at hmem
  | cons p rest ih =>
      obtain ⟨s, o⟩ := p
      by_cases hst : s = t
      · rw [updSet, if_pos hst]
        simp [hst]
      · rw [updSet, if_neg hst]
        simp only [List.map_cons] at hmem ⊢
        rcases List.mem_cons.mp hmem with heq | hmem2
        · exact absurd heq.symm hst
        · rw [ih hmem2]

theorem assocGet_updInitKey_self (u : Updates) (t : String) :
    assocGet t (updInitKey u t) = some (updGet u t) := by
  rw [updInitKey, updGet]
  cases hget : assocGet t u with
  | some x => simp [hget]
  | none =>
      simp only [Option.isSome_none]
      rw [if_neg (by simp)]
      rw [assocGet_append_of_none t u _ hget]
      simp [assocGet_cons]

theorem assocGet_updInitKey_other (u : Updates) (t s : String)
    (hst : s ≠ t) : assocGet s (updInitKey u t) = assocGet s u := by
  rw [updInitKey]
  cases hget : assocGet t u with
  | some x => simp
  | none =>
      simp only [Option.isSome_none]
      rw [if_neg (by simp)]
      cases hs : assocGet s u with
      | some y => exact assocGet_append_of_some s u _ y hs
      | none =>
          rw [assocGet_append_of_none s u _ hs, assocGet_cons,
            if_neg (fun h => hst h.symm)]
          rfl

theorem updGet_updInitKey (u : Updates) (t s : String) :
    updGet (updInitKey u t) s = updGet u s := by
  by_cases hst : s = t
  · subst hst
    rw [updGet, assocGet_updInitKey_self]
    rfl
  · rw [updGet, assocGet_updInitKey_other u t s hst]
    rfl

theorem updInitKey_mem_keys (u : Updates) (t : String) :
    t ∈ (updInitKey u t).map Prod.fst :=
  mem_keys_of_assocGet t (updGet u t) _ (assocGet_updInitKey_self u t)

theorem updInitKey_keys_nodup (u : Updates) (t : String)
    (h : (u.map Prod.fst).Nodup) :
    ((updInitKey u t).map Prod.fst).Nodup := by
  rw [updInitKey]
  cases hget : assocGet t u with
  | some x => simpa using h
  | none =>
      simp only [Option.isSome_none]
      rw [if_neg (by simp)]
      rw [List.map_append, List.nodup_append]
      refine ⟨h, by simp, ?_⟩
      intro a ha hb
      simp only [List.map_cons, List.map_nil, List.mem_singleton] at hb
      subst hb
      exact (assocGet_eq_none_iff a u).mp hget ha

theorem addLinkIds_nil (u : Updates) (lt f : String) (arr : Bool)
    (pk : Value) : addLinkIds u lt f arr pk [] = u := rfl

theorem addLinkIds_cons (u : Updates) (lt f : String) (arr : Bool)
    (pk tid : Value) (rest : List Value) :
    addLinkIds u lt f arr pk (tid :: rest)
      = addLinkIds
          (if tid ≠ Value.vnull then
            updSet u lt (applyAddId (updGet u lt) tid pk f arr)
          else u)
          lt f arr pk rest := rfl

theorem addLinkIds_keys (lt f : String) (arr : Bool) (pk : Value)
    (ids : List Value) :
    ∀ u : Updates, lt ∈ u.map Prod.fst →
      (addLinkIds u lt f arr pk ids).map Prod.fst = u.map Prod.fst := by
  induction ids with
  | nil => intro u _; rfl
  | cons tid rest ih =>
      intro u hmem
      rw [addLinkIds_cons]
      by_cases hnull : tid ≠ Value.vnull
      · rw [if_pos hnull]
        rw [ih _ (by rw [updSet_keys u lt _ hmem]; exact hmem)]
        exact updSet_keys u lt _ hmem
      · rw [if_neg hnull]
        exact ih u hmem

theorem processField_keys_nodup (rt : RecordTypes) (fields : Fields)
    (r : Record) (u : Updates) (field : String)
    (h : (u.map Prod.fst).Nodup) :
    ((processField rt fields r u field).map Prod.fst).Nodup := by
  rw [processField]
  split
  next v invField hv hinv =>
    rw [addLinkIds_keys _ _ _ _ _ _ (updInitKey_mem_keys u _)]
    exact updInitKey_keys_nodup u _ h
  next => exact h

theorem foldl_processField_keys_nodup (rt : RecordTypes) (fields : Fields)
    (r : Record) :
    ∀ (l : List String) (u : Updates), (u.map Prod.fst).Nodup →
      ((l.foldl (processField rt fields r) u).map Prod.fst).Nodup := by
  intro l
  induction l with
  | nil => intro u h; exact h
  | cons field rest ih =>
      intro u h
      rw [List.foldl_cons]
      exact ih _ (processField_keys_nodup rt fields r u field h)

theorem processLinks_keys_nodup (rt : RecordTypes) (fields : Fields)
    (links : List String) (r : Record) :
    ∀ u : Updates, (u.map Prod.fst).Nodup →
      ((processLinks rt fields links r u).map Prod.fst).Nodup := by
  intro u h
  rw [processLinks]
  exact foldl_processField_keys_nodup rt fields r links.reverse u h

theorem buildUpdates_keys_nodup (rt : RecordTypes) (fields : Fields)
    (links : List String) :
    ∀ (rs : List Record) (u : Updates), (u.map Prod.fst).Nodup →
      (((buildUpdates rt fields links rs u).1).map Prod.fst).Nodup := by
  intro rs
  induction rs with
  | nil => intro u h; exact h
  | cons r rest ih =>
      intro u h
      rw [buildUpdates]
      by_cases hpk : (assocGet primaryKey r).isSome = true
      · rw [if_pos hpk]
        exact ih _ (processLinks_keys_nodup rt fields links r u h)
      · rw [if_neg hpk]
        exact h

theorem createBody_updateCall (env : Env) (rt : RecordTypes) (fields : Fields)
    (links : List String) (rs0 : List Record) :
    ∀ t ops, Ev.updateCall t ops ∈ (createBody env rt fields links rs0).trace →
      (t, ops) ∈ (createBody env rt fields links rs0).finalUpdates ∧
      ops ≠ [] := by
  intro t ops hev
  have hnotB : ∀ trB, (transformStage env rs0).1 = trB →
      Ev.updateCall t ops ∈ trB → False := by
    intro trB htrB hmem
    rcases transformStage_events env rs0 _ (by rw [htrB]; exact hmem) with
      ⟨r, _, he⟩
    exact absurd he (by simp)
  unfold createBody at hev ⊢
  split at hev
  next trB e heq =>
    exact absurd hev (fun hmem => hnotB trB (by rw [heq]) hmem)
  next trB rs1 heq =>
    have htrB : Ev.updateCall t ops ∈ trB → False :=
      fun hmem => hnotB trB (by rw [heq]) hmem
    split at hev
    next e henf => exact absurd hev htrB
    next henf =>
      split at hev
      next e hval => exact absurd hev htrB
      next hval =>
        split at hev
        next e heqc =>
          simp at hev
          exact absurd hev htrB
        next created heqc =>
          split at hev
          next hemp =>
            simp at hev
            exact absurd hev htrB
          next hemp =>
            split at hev
            next upds e hequ =>
              simp at hev
              exact absurd hev htrB
            next upds hequ =>
              have hU : Ev.updateCall t ops ∈ (runUpdates env upds).1 →
                  (t, ops) ∈ upds ∧ ops ≠ [] := by
                intro hmem
                rcases runUpdates_events env upds _ hmem with
                  ⟨t2, ops2, he2, hm2, hne2⟩
                obtain ⟨rfl, rfl⟩ : t = t2 ∧ ops = ops2 := by
                  constructor <;> injection he2
                exact ⟨hm2, hne2⟩
              split at hev
              next trU e hequ2 =>
                simp at hev
                rcases hev with hev | hev
                · exact absurd hev htrB
                · rw [if_neg hemp]
                  exact hU (by rw [hequ2]; exact hev)
              next trU hequ2 =>
                split at hev
                next e hcommit =>
                  simp at hev
                  rcases hev with hev | hev
                  · exact absurd hev htrB
                  · rw [if_neg hemp]
                    exact hU (by rw [hequ2]; exact hev)
                next hcommit =>
                  simp at hev
                  rcases hev with hev | hev
                  · exact absurd hev htrB
                  · rw [if_neg hemp]
                    exact hU (by rw [hequ2]; exact hev)

theorem createBody_finalUpdates_nodup (env : Env) (rt : RecordTypes)
    (fields : Fields) (links : List String) (rs0 : List Record) :
    (((createBody env rt fields links rs0).finalUpdates).map Prod.fst).Nodup := by
  have hbu : ∀ created : List Record,
      (((buildUpdates rt fields links created.reverse []).1).map Prod.fst).Nodup :=
    fun created => buildUpdates_keys_nodup rt fields links created.reverse []
      (by simp)
  unfold createBody
  split
  next => simp
  next trB rs1 heq =>
    split
    next => simp
    next =>
      split
      next => simp
      next =>
        split
        next => simp
        next created heqc =>
          split
          next => simp
          next =>
            split
            next upds e hequ =>
              have h2 := hbu created
              rw [hequ] at h2
              exact h2
            next upds hequ =>
              have h2 := hbu created
              rw [hequ] at h2
              split
              next trU e hequ2 => exact h2
              next trU hequ2 =>
                split
                next e hcommit => exact h2
                next hcommit => exact h2

theorem create_finalUpdates_eq_body (env : Env) (rt : RecordTypes)
    (ty : String) (recs : List Record) (hne : recs.isEmpty = false)
    (hb : env.beginTx = Except.ok ()) :
    (create env rt ty (some recs)).finalUpdates
      = (bodyFor env rt ty recs).finalUpdates := by
  cases hres : (bodyFor env rt ty recs).result with
  | error e => rw [create_body_error_eq env rt ty recs e hne hb hres]
  | ok u =>
      cases u
      rw [create_body_ok_eq env rt ty recs hne hb hres]

theorem create_updateCall_charac (env : Env) (rt : RecordTypes) (ty : String)
    (payload : Option (List Record)) :
    ∀ t ops, Ev.updateCall t ops ∈ (create env rt ty payload).trace →
      (t, ops) ∈ (create env rt ty payload).finalUpdates ∧ ops ≠ [] := by
  intro t ops hev
  rcases payload with _ | recs
  · rw [create_none_eq] at hev; simp at hev
  · cases hne : recs.isEmpty with
    | true =>
        rw [List.isEmpty_iff.mp hne] at hev ⊢
        rw [create_nil_eq] at hev; simp at hev
    | false =>
        cases hb : env.beginTx with
        | error e =>
            rw [create_beginFail_eq env rt ty recs e hne hb] at hev
            simp at hev
        | ok u =>
            cases u
            rcases create_trace_unwrap env rt ty recs hne hb _ hev with
              heq | hmem | ⟨e, o, heq⟩ | ⟨d, heq⟩
            · exact absurd heq (by simp)
            · rw [create_finalUpdates_eq_body env rt ty recs hne hb]
              simp only [bodyFor] at hmem ⊢
              exact createBody_updateCall env rt (fieldsFor rt ty)
                (linksOf (fieldsFor rt ty)) (strippedFor rt ty recs) t ops hmem
            · exact absurd heq (by simp)
            · exact absurd heq (by simp)

theorem create_finalUpdates_nodup (env : Env) (rt : RecordTypes) (ty : String)
    (payload : Option (List Record)) :
    (((create env rt ty payload).finalUpdates).map Prod.fst).Nodup := by
  rcases payload with _ | recs
  · rw [create_none_eq]; simp
  · cases hne : recs.isEmpty with
    | true =>
        rw [List.isEmpty_iff.mp hne]
        rw [create_nil_eq]; simp
    | false =>
        cases hb : env.beginTx with
        | error e => rw [create_beginFail_eq env rt ty recs e hne hb]; simp
        | ok u =>
            cases u
            rw [create_finalUpdates_eq_body env rt ty recs hne hb]
            simp only [bodyFor]
            exact createBody_finalUpdates_nodup env rt (fieldsFor rt ty)
              (linksOf (fieldsFor rt ty)) (strippedFor rt ty recs)

theorem create_emit_charac (env : Env) (rt : RecordTypes) (ty : String)
    (payload : Option (List Record)) :
    ∀ d, Ev.emit d ∈ (create env rt ty payload).trace →
      d.updateEntries = (create env rt ty payload).finalUpdates.filter
        (fun p => !p.2.isEmpty) := by
  intro d hev
  rcases payload with _ | recs
  · rw [create_none_eq] at hev; simp at hev
  · cases hne : recs.isEmpty with
    | true =>
        rw [List.isEmpty_iff.mp hne] at hev ⊢
        rw [create_nil_eq] at hev; simp at hev
    | false =>
        cases hb : env.beginTx with
        | error e =>
            rw [create_beginFail_eq env rt ty recs e hne hb] at hev
            simp at hev
        | ok u =>
            cases u
            cases hres : (bodyFor env rt ty recs).result with
            | error e =>
                rw [create_body_error_eq env rt ty recs e hne hb hres] at hev
                simp at hev
                simp only [bodyFor] at hev
                rcases createBody_events env rt (fieldsFor rt ty)
                  (linksOf (fieldsFor rt ty)) (strippedFor rt ty recs) _ hev
                  with ⟨r, h⟩ | ⟨rs, h⟩ | ⟨t0, ops0, h⟩ | h <;>
                  exact absurd h (by simp)
            | ok u2 =>
                cases u2
                rw [create_body_ok_eq env rt ty recs hne hb hres] at hev ⊢
                rcases List.mem_cons.mp hev with heq | hev2
                · exact absurd heq (by simp)
                · rcases List.mem_append.mp hev2 with hev3 | hev4
                  · simp only [bodyFor] at hev3
                    rcases createBody_events env rt (fieldsFor rt ty)
                      (linksOf (fieldsFor rt ty)) (strippedFor rt ty recs) _
                      hev3 with ⟨r, h⟩ | ⟨rs, h⟩ | ⟨t0, ops0, h⟩ | h <;>
                      exact absurd h (by simp)
                  · rw [List.mem_singleton] at hev4
                    have hd : d = ⟨[(ty, (bodyFor env rt ty recs).responseRecords.getD [])],
                        (bodyFor env rt ty recs).finalUpdates.filter
                          (fun p => !p.2.isEmpty)⟩ := by
                      injection hev4
                    rw [hd]

theorem assocGet_filter_none {β : Type} (t : String)
    (p : (String × β) → Bool) (u : List (String × β))
    (h : assocGet t u = none) : assocGet t (u.filter p) = none := by
  rw [assocGet_eq_none_iff] at h ⊢
  intro hmem
  rcases List.mem_map.mp hmem with ⟨x, hx, rfl⟩
  exact h (List.mem_map_of_mem Prod.fst (List.mem_of_mem_filter hx))

theorem assocGet_filter_empty_none (u : Updates) (t : String)
    (hnd : (u.map Prod.fst).Nodup) (h : assocGet t u = some []) :
    assocGet t (u.filter (fun p => !p.2.isEmpty)) = none := by
  induction u with
  | nil => simp [assocGet] at h
  | cons q rest ih =>
      obtain ⟨s, o⟩ := q
      simp only [List.map_cons, List.nodup_cons] at hnd
      rw [assocGet_cons] at h
      by_cases hst : s = t
      · rw [if_pos hst] at h
        obtain rfl : o = [] := by injection h
        rw [List.filter_cons]
        rw [if_neg (by simp)]
        have hnone : assocGet t rest = none := by
          rw [assocGet_eq_none_iff, ← hst]
          exact hnd.1
        exact assocGet_filter_none t _ rest hnone
      · rw [if_neg hst] at h
        rw [List.filter_cons]
        by_cases hkeep : (!o.isEmpty) = true
        · rw [if_pos hkeep, assocGet_cons, if_neg hst]
          exact ih hnd.2 h
        · rw [if_neg hkeep]
          exact ih hnd.2 h

theorem assocGet_filter_nonempty_src (u : Updates) (t : String)
    (ops : List UpdateOp) (hnd : (u.map Prod.fst).Nodup)
    (h : assocGet t (u.filter (fun p => !p.2.isEmpty)) = some ops) :
    ops ≠ [] ∧ assocGet t u = some ops := by
  induction u with
  | nil => simp [assocGet] at h
  | cons q rest ih =>
      obtain ⟨s, o⟩ := q
      simp only [List.map_cons, List.nodup_cons] at hnd
      rw [List.filter_cons] at h
      by_cases hkeep : o.isEmpty
      · rw [if_neg (by simp [hkeep])] at h
        obtain ⟨h1, h2⟩ := ih hnd.2 h
        refine ⟨h1, ?_⟩
        rw [assocGet_cons]
        by_cases hst : s = t
        · subst hst
          exact absurd (mem_keys_of_assocGet s ops rest h2) hnd.1
        · rw [if_neg hst]
          exact h2
      · rw [if_pos (by simp [List.isEmpty_iff] at hkeep ⊢; exact hkeep)] at h
        rw [assocGet_cons] at h ⊢
        by_cases hst : s = t
        · rw [if_pos hst] at h ⊢
          obtain rfl : o = ops := by injection h
          refine ⟨?_, rfl⟩
          intro hnil
          rw [hnil] at hkeep
          simp at hkeep
        · rw [if_neg hst] at h ⊢
          exact ih hnd.2 h

/-- C7: updates dispatch skips empty entries.  A `transaction.update` call is
only ever made with a non-empty operation list; a linked type whose entry in
the updates accumulator stayed empty gets no update call and no `update`
sub-entry in the change event; and every `update` sub-entry of an emitted
change event is a non-empty operation list equal to that type's accumulated
operations. -/
theorem create_skip_empty_updates (env : Env) (rt : RecordTypes) (ty : String)
    (payload : Option (List Record)) :
    (∀ t ops, Ev.updateCall t ops ∈ (create env rt ty payload).trace →
      ops ≠ []) ∧
    (∀ t, assocGet t (create env rt ty payload).finalUpdates = some [] →
      (∀ ops, Ev.updateCall t ops ∉ (create env rt ty payload).trace) ∧
      (∀ d, Ev.emit d ∈ (create env rt ty payload).trace →
        assocGet t d.updateEntries = none)) ∧
    (∀ d, Ev.emit d ∈ (create env rt ty payload).trace →
      ∀ t ops, assocGet t d.updateEntries = some ops →
        ops ≠ [] ∧
        assocGet t (create env rt ty payload).finalUpdates = some ops) := by
  refine ⟨?_, ?_, ?_⟩
  · intro t ops hmem
    exact (create_updateCall_charac env rt ty payload t ops hmem).2
  · intro t hsome
    constructor
    · intro ops hmem
      obtain ⟨hin, hne⟩ := create_updateCall_charac env rt ty payload t ops hmem
      have hget := assocGet_of_mem_nodup t ops _
        (create_finalUpdates_nodup env rt ty payload) hin
      exact hne (by injection hget.symm.trans hsome)
    · intro d hd
      rw [create_emit_charac env rt ty payload d hd]
      exact assocGet_filter_empty_none _ t
        (create_finalUpdates_nodup env rt ty payload) hsome
  · intro d hd t ops hget
    rw [create_emit_charac env rt ty payload d hd] at hget
    exact assocGet_filter_nonempty_src _ t ops
      (create_finalUpdates_nodup env rt ty payload) hget

/-- Witness for `create_skip_empty_updates`: the backend returns a record
whose only link value is null, so the `animal` entry of the updates
accumulator stays empty — no update call is made for `animal` and the emitted
event carries no `update` sub-entry for it. -/
theorem create_skip_empty_updates_witness :
    assocGet "animal"
        (create envNullLink rtSing "person" (some [pIn2])).finalUpdates
      = some [] ∧
    ((∀ ops, Ev.updateCall "animal" ops
        ∉ (create envNullLink rtSing "person" (some [pIn2])).trace) ∧
      (∀ d, Ev.emit d ∈ (create envNullLink rtSing "person" (some [pIn2])).trace →
        assocGet "animal" d.updateEntries = none)) :=
  ⟨rfl,
    (create_skip_empty_updates envNullLink rtSing "person" (some [pIn2])).2.1
      "animal" rfl⟩

theorem addLinkIds_filter_null (lt f : String) (arr : Bool) (pk : Value) :
    ∀ (ids : List Value) (u : Updates),
      addLinkIds u lt f arr pk ids
        = addLinkIds u lt f arr pk
            (ids.filter (fun v => !(v == Value.vnull))) := by
  intro ids
  induction ids with
  | nil => intro u; rfl
  | cons tid rest ih =>
      intro u
      by_cases hnull : tid = Value.vnull
      · subst hnull
        rw [addLinkIds_cons, if_neg (by simp)]
        rw [List.filter_cons, if_neg (by simp)]
        exact ih u
      · rw [addLinkIds_cons, if_pos hnull]
        rw [List.filter_cons, if_pos (by simp [hnull])]
        rw [addLinkIds_cons, if_pos hnull]
        exact ih _

theorem addLinkIds_eq_of_allnull (lt f : String) (arr : Bool) (pk : Value) :
    ∀ (ids : List Value) (u : Updates), (∀ x ∈ ids, x = Value.vnull) →
      addLinkIds u lt f arr pk ids = u := by
  intro ids
  induction ids with
  | nil => intro u _; rfl
  | cons tid rest ih =>
      intro u h
      have htid : tid = Value.vnull := h tid (by simp)
      subst htid
      rw [addLinkIds_cons, if_neg (by simp)]
      exact ih u (fun x hx => h x (by simp [hx]))

theorem foldl_processField_get_of_null (rt : RecordTypes) (fields : Fields)
    (r : Record) :
    ∀ l : List String, (∀ field ∈ l, ∀ v, assocGet field r = some v →
        ∀ x ∈ linkedIdsOf v, x = Value.vnull) →
      ∀ (u : Updates) (t : String),
        updGet (l.foldl (processField rt fields r) u) t = updGet u t := by
  intro l
  induction l with
  | nil => intro _ u t; rfl
  | cons field restl ih =>
      intro hnull u t
      rw [List.foldl_cons]
      rw [ih (fun f2 hf2 => hnull f2 (List.mem_cons_of_mem _ hf2))]
      rw [processField]
      split
      next v invField hv hinv =>
        have hids : ∀ x ∈ (linkedIdsOf v).reverse, x = Value.vnull := by
          intro x hx
          exact hnull field (by simp) v hv x (List.mem_reverse.mp hx)
        rw [addLinkIds_eq_of_allnull _ _ _ _ _ _ hids]
        exact updGet_updInitKey u _ t
      next => rfl

theorem foldl_processField_absent (rt : RecordTypes) (fields : Fields)
    (r : Record) :
    ∀ l : List String, (∀ field ∈ l, assocGet field r = none) →
      ∀ u : Updates, l.foldl (processField rt fields r) u = u := by
  intro l
  induction l with
  | nil => intro _ u; rfl
  | cons field restl ih =>
      intro habs u
      rw [List.foldl_cons]
      have h1 : processField rt fields r u field = u := by
        rw [processField]
        split
        next v invField hv hinv =>
          rw [habs field (by simp)] at hv
          exact absurd hv (by simp)
        next => rfl
      rw [h1]
      exact ih (fun f2 hf2 => habs f2 (List.mem_cons_of_mem _ hf2)) u

/-- C9 counterexample: the claim "a record whose link fields are all null or
absent contributes nothing to the updates map" is false as stated.  The
backend returns a single record whose only link value is null; no Update
Operation is derived, but line 141 of `create.js` still initializes the
linked type's entry, so the updates map gains the key `animal` (with an empty
operation list) and is not left untouched. -/
theorem create_null_link_cex :
    assocGet "pets" pCNull = some Value.vnull ∧
    (create envNullLink rtSing "person" (some [pIn2])).responseRecords
      = some [pCNull] ∧
    (create envNullLink rtSing "person" (some [pIn2])).finalUpdates
      = [("animal", [])] ∧
    (create envNullLink rtSing "person" (some [pIn2])).finalUpdates
      ≠ ([] : Updates) :=
  ⟨rfl, rfl, rfl, by decide⟩

/-- C9 (amended): a null link value (or null element of an array link value)
produces no derived Update Operation — the id loop is invariant under
discarding null identifiers, and a record whose present link fields carry
only null identifiers leaves every type's pending operation list unchanged;
a record whose link fields are all absent contributes nothing at all.
However, a present link field with a declared inverse still initializes the
linked type's entry in the updates map, so an all-null record may add an
empty entry (see the counterexample). -/
theorem create_null_link_no_ops (rt : RecordTypes) (fields : Fields) :
    (∀ (u : Updates) (lt f : String) (arr : Bool) (pk : Value)
        (ids : List Value),
      addLinkIds u lt f arr pk ids
        = addLinkIds u lt f arr pk
            (ids.filter (fun v => !(v == Value.vnull)))) ∧
    (∀ (links : List String) (r : Record) (u : Updates),
      (∀ field ∈ links, ∀ v, assocGet field r = some v →
        ∀ x ∈ linkedIdsOf v, x = Value.vnull) →
      ∀ t, updGet (processLinks rt fields links r u) t = updGet u t) ∧
    (∀ (links : List String) (r : Record) (u : Updates),
      (∀ field ∈ links, assocGet field r = none) →
      processLinks rt fields links r u = u) := by
  refine ⟨?_, ?_, ?_⟩
  · intro u lt f arr pk ids
    exact addLinkIds_filter_null lt f arr pk ids u
  · intro links r u hnull t
    rw [processLinks]
    refine foldl_processField_get_of_null rt fields r links.reverse ?_ u t
    intro field hf
    exact hnull field (List.mem_reverse.mp hf)
  · intro links r u habs
    rw [processLinks]
    refine foldl_processField_absent rt fields r links.reverse ?_ u
    intro field hf
    exact habs field (List.mem_reverse.mp hf)

/-- Witness for `create_null_link_no_ops` at the concrete all-null record:
processing `pCNull` (whose only link value is null) leaves every pending
operation list exactly as it was. -/
theorem create_null_link_no_ops_witness :
    (∀ field ∈ linksOf (fieldsFor rtSing "person"), ∀ v,
      assocGet field pCNull = some v →
      ∀ x ∈ linkedIdsOf v, x = Value.vnull) ∧
    (∀ t, updGet (processLinks rtSing (fieldsFor rtSing "person")
        (linksOf (fieldsFor rtSing "person")) pCNull []) t
      = updGet [] t) :=
  ⟨by decide,
    (create_null_link_no_ops rtSing (fieldsFor rtSing "person")).2.1
      (linksOf (fieldsFor rtSing "person")) pCNull [] (by decide)⟩

theorem addId_id (pk : Value) (o : UpdateOp) (f : String) (arr : Bool) :
    (addId pk o f arr).id = o.id := by
  rw [addId]
  split <;> rfl

theorem applyAddId_map_id (tid pk : Value) (f : String) (arr : Bool) :
    ∀ ops : List UpdateOp,
      (applyAddId ops tid pk f arr).map (fun o => o.id)
        = if tid ∈ ops.map (fun o => o.id) then ops.map (fun o => o.id)
          else ops.map (fun o => o.id) ++ [tid] := by
  intro ops
  induction ops with
  | nil => simp [applyAddId, addId_id]
  | cons o rest ih =>
      rw [applyAddId]
      by_cases hid : o.id = tid
      · rw [if_pos hid]
        simp only [List.map_cons, addId_id]
        rw [if_pos (by simp [hid])]
      · rw [if_neg hid]
        simp only [List.map_cons]
        rw [ih]
        by_cases hmem : tid ∈ rest.map (fun o => o.id)
        · rw [if_pos hmem, if_pos (by simp [hmem])]
        · rw [if_neg hmem,
            if_neg (by
              intro hc
              rcases List.mem_cons.mp hc with hc | hc
              · exact hid hc.symm
              · exact hmem hc)]
          simp

theorem applyAddId_ids_nodup (ops : List UpdateOp) (tid pk : Value)
    (f : String) (arr : Bool)
    (h : (ops.map (fun o => o.id)).Nodup) :
    ((applyAddId ops tid pk f arr).map (fun o => o.id)).Nodup := by
  rw [applyAddId_map_id]
  by_cases hmem : tid ∈ ops.map (fun o => o.id)
  · rw [if_pos hmem]
    exact h
  · rw [if_neg hmem]
    rw [List.nodup_append]
    refine ⟨h, by simp, ?_⟩
    intro a ha hb
    rw [List.mem_singleton] at hb
    subst hb
    exact hmem ha

theorem updSet_applyAddId_ids_nodup (u : Updates) (lt : String)
    (tid pk : Value) (f : String) (arr : Bool)
    (h : ∀ t, ((updGet u t).map (fun o => o.id)).Nodup) :
    ∀ t, ((updGet (updSet u lt (applyAddId (updGet u lt) tid pk f arr)) t).map
      (fun o => o.id)).Nodup := by
  intro t
  by_cases hlt : t = lt
  · subst hlt
    rw [updGet_updSet_self]
    exact applyAddId_ids_nodup _ tid pk f arr (h t)
  · rw [updGet_updSet_other u lt t _ hlt]
    exact h t

theorem addLinkIds_ids_nodup (lt f : String) (arr : Bool) (pk : Value) :
    ∀ (ids : List Value) (u : Updates),
      (∀ t, ((updGet u t).map (fun o => o.id)).Nodup) →
      ∀ t, ((updGet (addLinkIds u lt f arr pk ids) t).map
        (fun o => o.id)).Nodup := by
  intro ids
  induction ids with
  | nil => intro u h; exact h
  | cons tid rest ih =>
      intro u h
      rw [addLinkIds_cons]
      by_cases hnull : tid ≠ Value.vnull
      · rw [if_pos hnull]
        exact ih _ (updSet_applyAddId_ids_nodup u lt tid pk f arr h)
      · rw [if_neg hnull]
        exact ih u h

theorem processField_ids_nodup (rt : RecordTypes) (fields : Fields)
    (r : Record) (u : Updates) (field : String)
    (h : ∀ t, ((updGet u t).map (fun o => o.id)).Nodup) :
    ∀ t, ((updGet (processField rt fields r u field) t).map
      (fun o => o.id)).Nodup := by
  rw [processField]
  split
  next v invField hv hinv =>
    refine addLinkIds_ids_nodup _ _ _ _ _ _ ?_
    intro t
    rw [updGet_updInitKey]
    exact h t
  next => exact h

theorem foldl_processField_ids_nodup (rt : RecordTypes) (fields : Fields)
    (r : Record) :
    ∀ (l : List String) (u : Updates),
      (∀ t, ((updGet u t).map (fun o => o.id)).Nodup) →
      ∀ t, ((updGet (l.foldl (processField rt fields r) u) t).map
        (fun o => o.id)).Nodup := by
  intro l
  induction l with
  | nil => intro u h; exact h
  | cons field restl ih =>
      intro u h
      rw [List.foldl_cons]
      exact ih _ (processField_ids_nodup rt fields r u field h)

theorem buildUpdates_ids_nodup (rt : RecordTypes) (fields : Fields)
    (links : List String) :
    ∀ (rs : List Record) (u : Updates),
      (∀ t, ((updGet u t).map (fun o => o.id)).Nodup) →
      ∀ t, ((updGet (buildUpdates rt fields links rs u).1 t).map
        (fun o => o.id)).Nodup := by
  intro rs
  induction rs with
  | nil => intro u h; exact h
  | cons r rest ih =>
      intro u h
      rw [buildUpdates]
      by_cases hpk : (assocGet primaryKey r).isSome = true
      · rw [if_pos hpk]
        refine ih _ ?_
        rw [processLinks]
        exact foldl_processField_ids_nodup rt fields r links.reverse u h
      · rw [if_neg hpk]
        exact h

theorem pushAppend_get_self (f : String) (v : Value) :
    ∀ p : List (String × List Value),
      assocGet f (pushAppend p f v) = some ((assocGet f p).getD [] ++ [v]) := by
  intro p
  induction p with
  | nil => simp [pushAppend, assocGet_cons, assocGet]
  | cons q rest ih =>
      obtain ⟨g, vs⟩ := q
      rw [pushAppend]
      by_cases hgf : g = f
      · rw [if_pos hgf, assocGet_cons, if_pos hgf, assocGet_cons, if_pos hgf]
        rfl
      · rw [if_neg hgf, assocGet_cons, if_neg hgf, assocGet_cons, if_neg hgf]
        exact ih

theorem pushAppend_get_other (f g : String) (v : Value) (hgf : g ≠ f) :
    ∀ p : List (String × List Value),
      assocGet g (pushAppend p f v) = assocGet g p := by
  intro p
  induction p with
  | nil =>
      rw [pushAppend, assocGet_cons, if_neg (fun h => hgf h.symm)]
  | cons q rest ih =>
      obtain ⟨a, vs⟩ := q
      rw [pushAppend]
      by_cases haf : a = f
      · rw [if_pos haf, assocGet_cons, assocGet_cons]
        by_cases hag : a = g
        · exact absurd (hag.symm.trans haf) hgf
        · rw [if_neg hag, if_neg hag]
      · rw [if_neg haf, assocGet_cons, assocGet_cons]
        by_cases hag : a = g
        · rw [if_pos hag, if_pos hag]
        · rw [if_neg hag, if_neg hag]
          exact ih

theorem addId_push_mem (pk : Value) (o : UpdateOp) (f : String) :
    ∃ vs, assocGet f (addId pk o f true).push = some vs ∧ pk ∈ vs := by
  rw [addId, if_pos rfl]
  exact ⟨(assocGet f o.push).getD [] ++ [pk], pushAppend_get_self f pk o.push,
    by simp⟩

theorem addId_push_preserve (pk2 : Value) (o : UpdateOp) (f2 : String)
    (arr : Bool) (f : String) (pk : Value) (vs : List Value)
    (h : assocGet f o.push = some vs) (hpk : pk ∈ vs) :
    ∃ vs2, assocGet f (addId pk2 o f2 arr).push = some vs2 ∧ pk ∈ vs2 := by
  rw [addId]
  cases arr with
  | false =>
      rw [if_neg (by simp)]
      exact ⟨vs, h, hpk⟩
  | true =>
      rw [if_pos rfl]
      by_cases hff : f = f2
      · subst hff
        refine ⟨(assocGet f o.push).getD [] ++ [pk2],
          pushAppend_get_self f pk2 o.push, ?_⟩
        rw [h]
        simp [hpk]
      · rw [show ((({ o with push := pushAppend o.push f2 pk2 } : UpdateOp)).push)
            = pushAppend o.push f2 pk2 from rfl,
          pushAppend_get_other f2 f pk2 hff]
        exact ⟨vs, h, hpk⟩

theorem applyAddId_establish (tid pk : Value) (f : String) :
    ∀ ops : List UpdateOp,
      ∃ op ∈ applyAddId ops tid pk f true, op.id = tid ∧
        ∃ vs, assocGet f op.push = some vs ∧ pk ∈ vs := by
  intro ops
  induction ops with
  | nil =>
      refine ⟨addId pk { id := tid } f true, by simp [applyAddId], ?_,
        addId_push_mem pk _ f⟩
      rw [addId_id]
  | cons o rest ih =>
      rw [applyAddId]
      by_cases hid : o.id = tid
      · rw [if_pos hid]
        refine ⟨addId pk o f true, by simp, ?_, addId_push_mem pk o f⟩
        rw [addId_id]
        exact hid
      · rw [if_neg hid]
        rcases ih with ⟨op, hmem, hop⟩
        exact ⟨op, by simp [hmem], hop⟩

theorem applyAddId_preserve (tid2 pk2 : Value) (f2 : String) (arr2 : Bool)
    (tid pk : Value) (f : String) :
    ∀ ops : List UpdateOp,
      (∃ op ∈ ops, op.id = tid ∧
        ∃ vs, assocGet f op.push = some vs ∧ pk ∈ vs) →
      ∃ op ∈ applyAddId ops tid2 pk2 f2 arr2, op.id = tid ∧
        ∃ vs, assocGet f op.push = some vs ∧ pk ∈ vs := by
  intro ops
  induction ops with
  | nil => intro h; simp at h
  | cons o rest ih =>
      intro h
      rcases h with ⟨op, hmem, hid, vs, hvs, hpk⟩
      rw [applyAddId]
      by_cases hid2 : o.id = tid2
      · rw [if_pos hid2]
        rcases List.mem_cons.mp hmem with heq | hmem2
        · subst heq
          rcases addId_push_preserve pk2 op f2 arr2 f pk vs hvs hpk with
            ⟨vs2, hvs2, hpk2⟩
          refine ⟨addId pk2 op f2 arr2, by simp, ?_, vs2, hvs2, hpk2⟩
          rw [addId_id]
          exact hid
        · exact ⟨op, by simp [hmem2], hid, vs, hvs, hpk⟩
      · rw [if_neg hid2]
        rcases List.mem_cons.mp hmem with heq | hmem2
        · subst heq
          exact ⟨op, by simp, hid, vs, hvs, hpk⟩
        · rcases ih ⟨op, hmem2, hid, vs, hvs, hpk⟩ with ⟨op2, hmem3, hrest⟩
          exact ⟨op2, by simp [hmem3], hrest⟩

theorem updSet_refInPush_preserve (u : Updates) (lt : String)
    (tid2 pk2 : Value) (f2 : String) (arr2 : Bool) (t : String)
    (tid : Value) (f : String) (pk : Value)
    (h : opRefInPush u t tid f pk) :
    opRefInPush (updSet u lt (applyAddId (updGet u lt) tid2 pk2 f2 arr2))
      t tid f pk := by
  simp only [opRefInPush] at h ⊢
  by_cases htlt : t = lt
  · subst htlt
    rw [updGet_updSet_self]
    exact applyAddId_preserve tid2 pk2 f2 arr2 tid pk f _ h
  · rw [updGet_updSet_other u lt t _ htlt]
    exact h

theorem updInitKey_refInPush_preserve (u : Updates) (lt2 t : String)
    (tid : Value) (f : String) (pk : Value)
    (h : opRefInPush u t tid f pk) :
    opRefInPush (updInitKey u lt2) t tid f pk := by
  simp only [opRefInPush] at h ⊢
  rw [updGet_updInitKey]
  exact h

theorem addLinkIds_refInPush_preserve (lt f2 : String) (arr2 : Bool)
    (pk2 : Value) :
    ∀ (ids : List Value) (u : Updates) (t : String) (tid : Value)
      (f : String) (pk : Value), opRefInPush u t tid f pk →
      opRefInPush (addLinkIds u lt f2 arr2 pk2 ids) t tid f pk := by
  intro ids
  induction ids with
  | nil => intro u t tid f pk h; exact h
  | cons tid2 rest ih =>
      intro u t tid f pk h
      rw [addLinkIds_cons]
      by_cases hnull : tid2 ≠ Value.vnull
      · rw [if_pos hnull]
        exact ih _ t tid f pk
          (updSet_refInPush_preserve u lt tid2 pk2 f2 arr2 t tid f pk h)
      · rw [if_neg hnull]
        exact ih u t tid f pk h

theorem addLinkIds_refInPush_establish (lt f : String) (pk : Value)
    (tid : Value) (hnull : tid ≠ Value.vnull) :
    ∀ (ids : List Value) (u : Updates), tid ∈ ids →
      opRefInPush (addLinkIds u lt f true pk ids) lt tid f pk := by
  intro ids
  induction ids with
  | nil => intro u hmem; simp at hmem
  | cons tid2 rest ih =>
      intro u hmem
      rw [addLinkIds_cons]
      rcases List.mem_cons.mp hmem with heq | hmem2
      · subst heq
        rw [if_pos hnull]
        apply addLinkIds_refInPush_preserve
        simp only [opRefInPush]
        rw [updGet_updSet_self]
        exact applyAddId_establish tid pk f _
      · by_cases hnull2 : tid2 ≠ Value.vnull
        · rw [if_pos hnull2]
          exact ih _ hmem2
        · rw [if_neg hnull2]
          exact ih u hmem2

theorem processField_eq_of_present (rt : RecordTypes) (fields : Fields)
    (r : Record) (u : Updates) (field : String) (v : Value) (fd : FieldDef)
    (invField : String)
    (hv : assocGet field r = some v)
    (hfd : assocGet field fields = some fd)
    (hinv : fd.inverse = some invField) :
    processField rt fields r u field
      = addLinkIds (updInitKey u (fd.link.getD "")) (fd.link.getD "") invField
          (invIsArray rt (fd.link.getD "") invField)
          ((assocGet primaryKey r).getD Value.vnull)
          (linkedIdsOf v).reverse := by
  unfold processField
  split
  next v2 invField2 hv2 hinv2 =>
    rw [hv] at hv2
    injection hv2 with hv3
    subst hv3
    rw [hfd] at hinv2
    simp only [Option.getD_some] at hinv2
    rw [hinv] at hinv2
    injection hinv2 with hinv3
    subst hinv3
    simp only [hfd, Option.getD_some]
  next hno =>
    exact (hno v invField hv (by rw [hfd]; simpa using hinv)).elim

theorem processField_refInPush_preserve (rt : RecordTypes) (fields : Fields)
    (r : Record) (u : Updates) (field t : String) (tid : Value) (f : String)
    (pk : Value) (h : opRefInPush u t tid f pk) :
    opRefInPush (processField rt fields r u field) t tid f pk := by
  rw [processField]
  split
  next v invField hv hinv =>
    exact addLinkIds_refInPush_preserve _ _ _ _ _ _ t tid f pk
      (updInitKey_refInPush_preserve u _ t tid f pk h)
  next => exact h

theorem foldl_processField_refInPush_preserve (rt : RecordTypes)
    (fields : Fields) (r : Record) :
    ∀ (l : List String) (u : Updates) (t : String) (tid : Value) (f : String)
      (pk : Value), opRefInPush u t tid f pk →
      opRefInPush (l.foldl (processField rt fields r) u) t tid f pk := by
  intro l
  induction l with
  | nil => intro u t tid f pk h; exact h
  | cons field restl ih =>
      intro u t tid f pk h
      rw [List.foldl_cons]
      exact ih _ t tid f pk
        (processField_refInPush_preserve rt fields r u field t tid f pk h)

theorem foldl_processField_refInPush_establish (rt : RecordTypes)
    (fields : Fields) (r : Record) (field : String) (v : Value)
    (fd : FieldDef) (invField : String) (tid : Value)
    (hv : assocGet field r = some v)
    (hfd : assocGet field fields = some fd)
    (hinv : fd.inverse = some invField)
    (harr : invIsArray rt (fd.link.getD "") invField = true)
    (htid : tid ∈ linkedIdsOf v) (hnull : tid ≠ Value.vnull) :
    ∀ (l : List String) (u : Updates), field ∈ l →
      opRefInPush (l.foldl (processField rt fields r) u) (fd.link.getD "")
        tid invField ((assocGet primaryKey r).getD Value.vnull) := by
  intro l
  induction l with
  | nil => intro u hmem; simp at hmem
  | cons field2 restl ih =>
      intro u hmem
      rw [List.foldl_cons]
      rcases List.mem_cons.mp hmem with heq | hmem2
      · subst heq
        apply foldl_processField_refInPush_preserve
        rw [processField_eq_of_present rt fields r u field v fd invField
          hv hfd hinv, harr]
        exact addLinkIds_refInPush_establish _ _ _ tid hnull _ _
          (List.mem_reverse.mpr htid)
      · exact ih _ hmem2

theorem buildUpdates_refInPush_preserve (rt : RecordTypes) (fields : Fields)
    (links : List String) :
    ∀ (rs : List Record) (u : Updates) (t : String) (tid : Value)
      (f : String) (pk : Value), opRefInPush u t tid f pk →
      opRefInPush (buildUpdates rt fields links rs u).1 t tid f pk := by
  intro rs
  induction rs with
  | nil => intro u t tid f pk h; exact h
  | cons r rest ih =>
      intro u t tid f pk h
      rw [buildUpdates]
      by_cases hpk : (assocGet primaryKey r).isSome = true
      · rw [if_pos hpk]
        refine ih _ t tid f pk ?_
        rw [processLinks]
        exact foldl_processField_refInPush_preserve rt fields r links.reverse
          u t tid f pk h
      · rw [if_neg hpk]
        exact h

theorem buildUpdates_refInPush_establish (rt : RecordTypes) (fields : Fields)
    (links : List String) (r : Record) (field : String) (v : Value)
    (fd : FieldDef) (invField : String) (tid : Value)
    (hfield : field ∈ links)
    (hv : assocGet field r = some v)
    (hfd : assocGet field fields = some fd)
    (hinv : fd.inverse = some invField)
    (harr : invIsArray rt (fd.link.getD "") invField = true)
    (htid : tid ∈ linkedIdsOf v) (hnull : tid ≠ Value.vnull) :
    ∀ (rs : List Record) (u : Updates), r ∈ rs →
      (buildUpdates rt fields links rs u).2 = none →
      opRefInPush (buildUpdates rt fields links rs u).1 (fd.link.getD "")
        tid invField ((assocGet primaryKey r).getD Value.vnull) := by
  intro rs
  induction rs with
  | nil => intro u hmem _; simp at hmem
  | cons r2 rest ih =>
      intro u hmem hok
      rw [buildUpdates] at hok ⊢
      by_cases hpk : (assocGet primaryKey r2).isSome = true
      · rw [if_pos hpk] at hok ⊢
        rcases List.mem_cons.mp hmem with heq | hmem2
        · subst heq
          apply buildUpdates_refInPush_preserve
          rw [processLinks]
          exact foldl_processField_refInPush_establish rt fields r field v fd
            invField tid hv hfd hinv harr htid hnull links.reverse u
            (List.mem_reverse.mpr hfield)
        · exact ih _ hmem2 hok
      · rw [if_neg hpk] at hok
        exact absurd hok (by simp)

theorem createBody_finalUpdates_src (env : Env) (rt : RecordTypes)
    (fields : Fields) (links : List String) (rs0 : List Record) :
    (createBody env rt fields links rs0).finalUpdates = [] ∨
    ∃ created : List Record,
      (createBody env rt fields links rs0).finalUpdates
        = (buildUpdates rt fields links created.reverse []).1 := by
  unfold createBody
  split
  next => exact Or.inl rfl
  next trB rs1 heq =>
    split
    next => exact Or.inl rfl
    next =>
      split
      next => exact Or.inl rfl
      next =>
        split
        next => exact Or.inl rfl
        next created heqc =>
          split
          next => exact Or.inl rfl
          next =>
            split
            next upds e hequ =>
              refine Or.inr ⟨created, ?_⟩
              rw [hequ]
            next upds hequ =>
              split
              next trU e hequ2 =>
                refine Or.inr ⟨created, ?_⟩
                rw [hequ]
              next trU hequ2 =>
                split
                next e hcommit =>
                  refine Or.inr ⟨created, ?_⟩
                  rw [hequ]
                next hcommit =>
                  refine Or.inr ⟨created, ?_⟩
                  rw [hequ]

/-- C2 counterexample: with a singular inverse field the single merged
Update Operation does not contain all new back-references.  Two created
persons (ids 1 and 2) both reference animal 10 through `pets`, whose declared
inverse `owner` on `animal` is scalar; the pipeline produces exactly one
Update Operation for animal 10, but its `replace` mutation retains only
person 1's back-reference — person 2's is overwritten, so the operation does
not contain all new back-references as the claim states. -/
theorem create_update_merge_cex :
    (create envOK rtSing "person" (some [pIn1, pIn2])).finalUpdates
      = [("animal",
          [(⟨Value.vid 10, [], [("owner", Value.vid 1)]⟩ : UpdateOp)])] ∧
    opContains (⟨Value.vid 10, [], [("owner", Value.vid 1)]⟩ : UpdateOp)
      (Value.vid 1) ∧
    ¬ opContains (⟨Value.vid 10, [], [("owner", Value.vid 1)]⟩ : UpdateOp)
      (Value.vid 2) ∧
    (create envOK rtSing "person" (some [pIn1, pIn2])).responseRecords
      = some [pC1, pC2] :=
  ⟨rfl, by decide, by decide, rfl⟩

/-- C2 (amended): pending Update Operations are merged per
`(linkedType, targetPrimaryKey)` — every type's operation list carries
pairwise-distinct target ids, both in `buildUpdates` and in the updates
accumulator of any full pipeline run, so a target referenced several times
never yields more than one operation; and when the inverse field is
array-valued, the single operation for a target accumulates every
referencing record's primary key in its `push` mutation.  (For a singular
inverse field the operation keeps only one `replace` value, losing the other
back-references — see the counterexample.) -/
theorem create_update_merge (rt : RecordTypes) (fields : Fields)
    (links : List String) (records : List Record) :
    (∀ t, ((updGet (buildUpdates rt fields links records []).1 t).map
      (fun o => o.id)).Nodup) ∧
    (∀ env ty payload t,
      ((updGet (create env rt ty payload).finalUpdates t).map
        (fun o => o.id)).Nodup) ∧
    (∀ r ∈ records, (buildUpdates rt fields links records []).2 = none →
      ∀ field ∈ links, ∀ fd, assocGet field fields = some fd →
      ∀ invField, fd.inverse = some invField →
      invIsArray rt (fd.link.getD "") invField = true →
      ∀ v, assocGet field r = some v →
      ∀ tid ∈ linkedIdsOf v, tid ≠ Value.vnull →
      opRefInPush (buildUpdates rt fields links records []).1
        (fd.link.getD "") tid invField
        ((assocGet primaryKey r).getD Value.vnull)) := by
  have hbase : ∀ t, ((updGet ([] : Updates) t).map (fun o => o.id)).Nodup := by
    intro t
    simp [updGet, assocGet]
  refine ⟨?_, ?_, ?_⟩
  · exact buildUpdates_ids_nodup rt fields links records [] hbase
  · intro env ty payload t
    have hgen : ∀ fields2 links2 rs0,
        ((updGet (createBody env rt fields2 links2 rs0).finalUpdates t).map
          (fun o => o.id)).Nodup := by
      intro fields2 links2 rs0
      rcases createBody_finalUpdates_src env rt fields2 links2 rs0 with
        hsrc | ⟨created, hsrc⟩
      · rw [hsrc]
        exact hbase t
      · rw [hsrc]
        exact buildUpdates_ids_nodup rt fields2 links2 created.reverse []
          hbase t
    rcases payload with _ | recs
    · rw [create_none_eq]
      exact hbase t
    · cases hne : recs.isEmpty with
      | true =>
          rw [List.isEmpty_iff.mp hne]
          rw [create_nil_eq]
          exact hbase t
      | false =>
          cases hb : env.beginTx with
          | error e =>
              rw [create_beginFail_eq env rt ty recs e hne hb]
              exact hbase t
          | ok u =>
              cases u
              rw [create_finalUpdates_eq_body env rt ty recs hne hb]
              simp only [bodyFor]
              exact hgen (fieldsFor rt ty) (linksOf (fieldsFor rt ty))
                (strippedFor rt ty recs)
  · intro r hmem hok field hfield fd hfd invField hinv harr v hv tid htid hnull
    exact buildUpdates_refInPush_establish rt fields links r field v fd
      invField tid hfield hv hfd hinv harr htid hnull records [] hmem hok

/-- Witness for `create_update_merge` with an array-valued inverse: both
created persons reference animal 10 through `pets` (inverse `owners`, an
array on `animal`), and each person's primary key ends up in the single
operation's `push` mutation for `owners`. -/
theorem create_update_merge_witness :
    (pC1 ∈ ([pC2, pC1] : List Record) ∧
      (buildUpdates rtArr (fieldsFor rtArr "person")
        (linksOf (fieldsFor rtArr "person")) [pC2, pC1] []).2 = none ∧
      invIsArray rtArr "animal" "owners" = true) ∧
    opRefInPush (buildUpdates rtArr (fieldsFor rtArr "person")
        (linksOf (fieldsFor rtArr "person")) [pC2, pC1] []).1
      "animal" (Value.vid 10) "owners" (Value.vid 1) :=
  ⟨⟨by decide, rfl, rfl⟩, by
    have h := (create_update_merge rtArr (fieldsFor rtArr "person")
      (linksOf (fieldsFor rtArr "person")) [pC2, pC1]).2.2 pC1 (by decide)
      rfl "pets" (by decide)
      (⟨some "animal", some "owners", true, false⟩ : FieldDef)
      rfl "owners" rfl rfl (Value.varr [some 10]) rfl (Value.vid 10)
      (by decide) (by decide)
    simpa using h⟩

end FortuneCreate
